import Mathlib

set_option maxRecDepth 8000
set_option maxHeartbeats 1000000

attribute [local semireducible] Rat.mul Rat.inv Rat.add Rat.sub Rat.ofScientific

/-!
Shallow embedding of the DocuMap field-extraction and mapping-memory core
(`apps/api/src/lib/pdf-extractor.ts`, the mapping-memory store module, and the
shared canonical-field / synonym tables), together with theorems checking the
natural-language specification against it.  Machine arithmetic on extracted
amounts is modelled with exact rationals; strings are ASCII character lists.
-/

namespace DocuMap

/-- JS whitespace test: the `\s` character class, restricted to the ASCII
whitespace characters that can occur in this code's inputs. -/
def isJsSpace (c : Char) : Bool :=
  c = ' ' || c = '\t' || c = '\n' || c = '\r' || c = Char.ofNat 11 || c = Char.ofNat 12

/-- ASCII lowercasing of one character, as `String.prototype.toLowerCase`
acts on the ASCII range. -/
def jsToLowerChar (c : Char) : Char :=
  if 'A' ≤ c ∧ c ≤ 'Z' then Char.ofNat (c.toNat + 32) else c

def toLowerChars (cs : List Char) : List Char := cs.map jsToLowerChar

/-- JS `String.prototype.trim` on a character list. -/
def trimChars (cs : List Char) : List Char :=
  ((cs.dropWhile isJsSpace).reverse.dropWhile isJsSpace).reverse

def jsToLower (s : String) : String := String.mk (toLowerChars s.data)

def jsTrim (s : String) : String := String.mk (trimChars s.data)

/-- JS `hay.includes(needle)`: substring containment on character lists. -/
def isInfixL (needle hay : List Char) : Bool :=
  hay.tails.any (fun t => needle.isPrefixOf t)

def strIncludes (hay needle : String) : Bool := isInfixL needle.data hay.data

/-- JS `replace(/\s+/g, " ")`: collapse every maximal whitespace run to one
space.  The flag records whether the scanner is inside a whitespace run. -/
def collapseWsAux (inRun : Bool) : List Char → List Char
  | [] => []
  | c :: rest =>
    if isJsSpace c then
      if inRun then collapseWsAux true rest else ' ' :: collapseWsAux true rest
    else c :: collapseWsAux false rest

def collapseWsChars (cs : List Char) : List Char := collapseWsAux false cs

/-- JS `split(/\r?\n/)` on a character list: split at each `\n`, dropping a
carriage return standing immediately before it.  The accumulator holds the
current piece reversed. -/
def splitLinesAux (cur : List Char) : List Char → List (List Char)
  | [] => [cur.reverse]
  | c :: rest =>
    if c = '\n' then
      (match cur with
       | '\r' :: cur' => cur'.reverse
       | _ => cur.reverse) :: splitLinesAux [] rest
    else splitLinesAux (c :: cur) rest

def splitLines (s : String) : List (List Char) := splitLinesAux [] s.data

/-- Embedding of `text.split(/\r?\n/).map(l => l.trim()).filter(Boolean)` — the line
preprocessing shared by `isWatermarkOnly`, `extractFieldsFromText` and
`synonymMatch`. -/
def cleanLines (s : String) : List (List Char) :=
  ((splitLines s).map trimChars).filter (fun l => !l.isEmpty)

/-- First-occurrence deduplication, modelling iteration order of a JS `Set`. -/
def dedupKeepFirst (seen : List (List Char)) : List (List Char) → List (List Char)
  | [] => []
  | x :: xs => if x ∈ seen then dedupKeepFirst seen xs else x :: dedupKeepFirst (x :: seen) xs

/-- Embedding of `isWatermarkOnly` from `pdf-extractor.ts`: empty text, or at most three
distinct lowercased lines over at least three lines with an average distinct
line length below 40 characters. -/
def isWatermarkOnly (text : String) : Bool :=
  let lines := cleanLines text
  if lines.isEmpty then true
  else
    let uniq := dedupKeepFirst [] (lines.map toLowerChars)
    if uniq.length ≤ 3 ∧ 3 ≤ lines.length then
      decide ((((uniq.map List.length).sum : ℚ) / (uniq.length : ℚ)) < 40)
    else false

/-! ## Mapping-memory store (part_006: mapping-file-store module) -/

inductive TType where
  | field
  | table
deriving DecidableEq, Repr

structure MappingMemoryEntry where
  targetKey : String
  targetType : TType
  sourceLabels : List String
  usageCount : Nat
  lastUsed : String
deriving DecidableEq, Repr

structure MappingMemoryStore where
  tenantId : String
  entries : List MappingMemoryEntry
  updatedAt : String
deriving DecidableEq, Repr

structure ExtractedFieldIn where
  id : String
  label : String
  value : String
deriving DecidableEq, Repr

structure MappingRow where
  sourceType : TType
  sourceKey : String
  targetType : TType
  targetKey : String
deriving DecidableEq, Repr

/-- The `idToLabel` map built in `learnMappings`: for each extracted field,
`set(f.id, f.label)` then `set(f.label, f.label)`; a later `set` overwrites. -/
def idToLabelPairs (fields : List ExtractedFieldIn) : List (String × String) :=
  (fields.map (fun f => [(f.id, f.label), (f.label, f.label)])).flatten

/-- JS `Map.get`: the value of the last `set` with that key. -/
def mapGetLast (ps : List (String × String)) (k : String) : Option String :=
  (ps.reverse.find? (fun p => p.1 = k)).map (fun p => p.2)

/-- Embedding of `idToLabel.get(m.sourceKey) || m.sourceKey` — note the `||` falls back to
the source key when the looked-up label is the empty string (falsy). -/
def resolveRawLabel (fields : List ExtractedFieldIn) (sourceKey : String) : String :=
  match mapGetLast (idToLabelPairs fields) sourceKey with
  | some s => if s = "" then sourceKey else s
  | none => sourceKey

/-- Embedding of `rawLabel.toLowerCase().trim()` — the normalization used by the learn and
add-label mutations (lowercase and trim only; no whitespace collapsing). -/
def normLT (s : String) : String := jsTrim (jsToLower s)

/-- Update of the first entry with the given target key inside `learnMappings`
(append the label variant if unknown, bump the usage count), or creation of a
new entry at the end of the list. -/
def learnEntries (tk : String) (tt : TType) (lbl now : String) :
    List MappingMemoryEntry → List MappingMemoryEntry
  | [] => [⟨tk, tt, [lbl], 1, now⟩]
  | e :: rest =>
    if e.targetKey = tk then
      { e with
        sourceLabels := if lbl ∈ e.sourceLabels then e.sourceLabels else e.sourceLabels ++ [lbl]
        usageCount := e.usageCount + 1
        lastUsed := now
        targetType := tt } :: rest
    else e :: learnEntries tk tt lbl now rest

/-- One iteration of the `for (const m of mappings)` loop of `learnMappings`. -/
def learnOne (fields : List ExtractedFieldIn) (now : String)
    (store : MappingMemoryStore) (m : MappingRow) : MappingMemoryStore :=
  if m.sourceKey = "" ∨ m.targetKey = "" then store
  else
    let rawLabel := resolveRawLabel fields m.sourceKey
    let normalizedLabel := normLT rawLabel
    if normalizedLabel = "" then store
    else { store with entries := learnEntries m.targetKey m.targetType normalizedLabel now store.entries }

/-- Embedding of `learnMappings` (persistence elided: the store mutation only). -/
def learnMappings (store : MappingMemoryStore) (mappings : List MappingRow)
    (fields : List ExtractedFieldIn) (now : String) : MappingMemoryStore :=
  mappings.foldl (learnOne fields now) store

/-- Entry update of `addSourceLabel`: like the learn update but an existing
entry keeps its `targetType` (the code only sets it when creating). -/
def addLabelEntries (tk : String) (tt : TType) (lbl now : String) :
    List MappingMemoryEntry → List MappingMemoryEntry
  | [] => [⟨tk, tt, [lbl], 1, now⟩]
  | e :: rest =>
    if e.targetKey = tk then
      { e with
        sourceLabels := if lbl ∈ e.sourceLabels then e.sourceLabels else e.sourceLabels ++ [lbl]
        usageCount := e.usageCount + 1
        lastUsed := now } :: rest
    else e :: addLabelEntries tk tt lbl now rest

/-- Embedding of `addSourceLabel`: directly add one label variant to a target entry. -/
def addSourceLabel (store : MappingMemoryStore) (targetKey : String) (targetType : TType)
    (sourceLabel : String) (now : String) : MappingMemoryStore :=
  let normalizedLabel := normLT sourceLabel
  if normalizedLabel = "" then store
  else { store with entries := addLabelEntries targetKey targetType normalizedLabel now store.entries }

/-- Update of the first entry satisfying `p` (JS mutates the object found by
`Array.prototype.find` in place). -/
def updateFirst (p : MappingMemoryEntry → Bool) (f : MappingMemoryEntry → MappingMemoryEntry) :
    List MappingMemoryEntry → List MappingMemoryEntry
  | [] => []
  | e :: rest => if p e then f e :: rest else e :: updateFirst p f rest

/-- Embedding of `removeSourceLabel`: filter the label out of the first entry with the
target key; when that entry's label list becomes empty, remove every entry
with that target key from the store. -/
def removeSourceLabel (store : MappingMemoryStore) (targetKey sourceLabel : String) :
    MappingMemoryStore :=
  let normalizedLabel := normLT sourceLabel
  match store.entries.find? (fun e => e.targetKey = targetKey) with
  | none => store
  | some e =>
    let entries1 := updateFirst (fun e => e.targetKey = targetKey)
      (fun e => { e with sourceLabels := e.sourceLabels.filter (fun l => l ≠ normalizedLabel) })
      store.entries
    if e.sourceLabels.filter (fun l => l ≠ normalizedLabel) = [] then
      { store with entries := entries1.filter (fun x => !(x.targetKey = targetKey : Bool)) }
    else { store with entries := entries1 }

/-! ## Canonical output fields and synonym table (packages/shared/src/index.ts) -/

inductive OutputFieldKey where
  | owners_capital
  | total_liabilities
  | pbit
  | interest
  | accounts_payable
  | accounts_receivable
  | dealer_turnover
  | purchases
  | current_assets
  | current_liabilities
deriving DecidableEq, Repr

structure OutputField where
  key : OutputFieldKey
  label : String
  required : Bool
  type : String
deriving DecidableEq, Repr

def OUTPUT_FIELDS : List OutputField :=
  [⟨.owners_capital, "Owners Capital", true, "number"⟩,
   ⟨.total_liabilities, "Total Liabilities", true, "number"⟩,
   ⟨.pbit, "PBIT", true, "number"⟩,
   ⟨.interest, "Interest", true, "number"⟩,
   ⟨.accounts_payable, "Accounts Payable", true, "number"⟩,
   ⟨.accounts_receivable, "Accounts Receivable", true, "number"⟩,
   ⟨.dealer_turnover, "Dealer Turnover", true, "number"⟩,
   ⟨.purchases, "Purchases", true, "number"⟩,
   ⟨.current_assets, "Current Assets", true, "number"⟩,
   ⟨.current_liabilities, "Current Liabilities", true, "number"⟩]

def SYNONYM_MAP : OutputFieldKey → List String
  | .owners_capital =>
    ["owners capital", "capital account", "partner capital", "proprietor capital",
     "proprietor\x27s capital", "partners capital", "capital & reserves",
     "reserves & surplus", "shareholders funds", "networth", "net worth",
     "equity capital", "proprietors fund", "capital fund"]
  | .total_liabilities =>
    ["total liabilities", "total of liabilities side", "total liabilities side",
     "total (liabilities)", "grand total liabilities", "total equity & liabilities",
     "total sources of funds"]
  | .pbit =>
    ["pbit", "profit before interest and tax", "profit before interest & tax",
     "operating profit before interest", "ebit", "earnings before interest and tax",
     "net profit before interest and tax", "profit before tax + interest"]
  | .interest =>
    ["interest", "interest on loan", "interest on loans", "bank interest",
     "finance charges", "interest expenses", "interest paid",
     "interest on borrowings", "interest & finance charges", "borrowing cost"]
  | .accounts_payable =>
    ["accounts payable", "trade payables", "sundry creditors", "creditors for goods",
     "trade creditors", "creditors", "payables", "creditors for purchase"]
  | .purchases =>
    ["purchases", "net purchases", "purchase of goods", "purchase",
     "goods purchased", "cost of goods purchased", "total purchases"]
  | .accounts_receivable =>
    ["accounts receivable", "trade receivables", "sundry debtors", "debtors",
     "debtors outstanding", "receivables", "book debts", "trade debtors"]
  | .dealer_turnover =>
    ["dealer turnover", "sales", "gross sales", "net sales",
     "revenue from operations", "turnover", "total sales", "total revenue",
     "net turnover", "total turnover"]
  | .current_assets =>
    ["current assets", "total current assets", "current assets (a)", "current assets total"]
  | .current_liabilities =>
    ["current liabilities", "total current liabilities", "current liabilities (b)",
     "current liabilities total", "current liabilities & provisions"]

/-! ## Synonym matcher (`synonymMatch` in pdf-extractor.ts) -/

def isCurrencyChar (c : Char) : Bool :=
  c = '₹' || c = '$' || c = '€' || c = '£' || c = '¥'

/-- Anchored match of `\s*\(?-?\d[\d,]*(?:\.\d+)?\)?` (the amount regex after
its optional currency symbol), returning the consumed characters.  Every
optional component's first character is disjoint from its successors', so the
greedy scan needs no backtracking. -/
def numTailAt (cs : List Char) : Option (List Char) :=
  let (sp, r1) := cs.span isJsSpace
  let (par, r2) : List Char × List Char :=
    match r1 with
    | '(' :: t => (['('], t)
    | _ => ([], r1)
  let (mi, r3) : List Char × List Char :=
    match r2 with
    | '-' :: t => (['-'], t)
    | _ => ([], r2)
  match r3 with
  | c :: t =>
    if c.isDigit then
      let (ds, r4) := t.span (fun d => d.isDigit || d = ',')
      let (fr, r5) : List Char × List Char :=
        match r4 with
        | '.' :: u =>
          (match u.span Char.isDigit with
           | ([], _) => ([], r4)
           | (fs, v) => ('.' :: fs, v))
        | _ => ([], r4)
      let cp : List Char :=
        match r5 with
        | ')' :: _ => [')']
        | _ => []
      some (sp ++ par ++ mi ++ c :: ds ++ fr ++ cp)
    else none
  | [] => none

/-- Anchored match of the full amount regex
`[₹$€£¥]?\s*\(?-?\d[\d,]*(?:\.\d+)?\)?` at the head of the list. -/
def numMatchAt (cs : List Char) : Option (List Char) :=
  match cs with
  | c :: rest =>
    if isCurrencyChar c then (numTailAt rest).map (fun m => c :: m)
    else numTailAt cs
  | [] => none

/-- Leftmost match of the amount regex in a line (JS `String.prototype.match`
with a non-global regex). -/
def findNumMatch : List Char → Option (List Char)
  | [] => none
  | c :: rest =>
    match numMatchAt (c :: rest) with
    | some m => some m
    | none => findNumMatch rest

/-- JS `replace(/[₹$€£¥,\s]/g, "")`. -/
def stripCurrencyCommaWs (cs : List Char) : List Char :=
  cs.filter (fun c => !(isCurrencyChar c || c = ',' || isJsSpace c))

def lastIdxOf (c : Char) (cs : List Char) : Option Nat :=
  match cs.reverse.findIdx? (fun x => x = c) with
  | none => none
  | some j => some (cs.length - 1 - j)

/-- JS `replace(/\((.+)\)/, "-$1")` (non-global: first match only): the match
runs from the first opening parenthesis to the last closing parenthesis with
at least one character between them. -/
def parenReplace (cs : List Char) : List Char :=
  match cs.findIdx? (fun c => c = '(') with
  | none => cs
  | some i =>
    let after := cs.drop (i + 1)
    match lastIdxOf ')' after with
    | none => cs
    | some j =>
      if 1 ≤ j then cs.take i ++ '-' :: after.take j ++ after.drop (j + 1)
      else cs

def digitsToNat (ds : List Char) : Nat :=
  ds.foldl (fun acc c => acc * 10 + (c.toNat - 48)) 0

/-- JS `parseFloat`, on the character sets reachable here (digits, sign, dot,
parentheses; never an exponent): parse the longest numeric prefix, ignore any
trailing junk, return `none` for NaN. -/
def jsParseFloat (cs : List Char) : Option ℚ :=
  let cs1 := cs.dropWhile isJsSpace
  let (sgn, r1) : ℚ × List Char :=
    match cs1 with
    | '-' :: t => (-1, t)
    | '+' :: t => (1, t)
    | _ => (1, cs1)
  let (ds, r2) := r1.span Char.isDigit
  let fr : List Char :=
    match r2 with
    | '.' :: t => t.takeWhile Char.isDigit
    | _ => []
  if ds.isEmpty ∧ fr.isEmpty then none
  else some (sgn * ((digitsToNat ds : ℚ) + (digitsToNat fr : ℚ) / ((10 : ℚ) ^ fr.length)))

structure LineEntry where
  text : List Char
  num : ℚ
deriving DecidableEq, Repr

/-- The `lineEntries` accumulation in `synonymMatch`: trimmed non-empty lines
carrying a detectable amount, stored lowercased with the parsed value
(currency symbols, commas and whitespace stripped; parenthesized negated). -/
def lineEntries (rawText : String) : List LineEntry :=
  (cleanLines rawText).filterMap (fun line =>
    match findNumMatch line with
    | none => none
    | some m =>
      match jsParseFloat (parenReplace (stripCurrencyCommaWs m)) with
      | none => none
      | some n => some ⟨toLowerChars line, n⟩)

def synMatchesEntry (k : OutputFieldKey) (e : LineEntry) : Bool :=
  (SYNONYM_MAP k).any (fun syn => isInfixL (toLowerChars syn.data) e.text)

/-- Embedding of `synonymMatch`: for each canonical field in order, the first line entry
containing any of its synonyms (case-insensitive substring) supplies the
value.  The result object is modelled as an association list in canonical
field order. -/
def synonymMatch (rawText : String) : List (OutputFieldKey × ℚ) :=
  let entries := lineEntries rawText
  OUTPUT_FIELDS.filterMap (fun f =>
    (entries.find? (synMatchesEntry f.key)).map (fun e => (f.key, e.num)))

/-- Reading one key of the object returned by `synonymMatch`. -/
def synonymLookup (rawText : String) (k : OutputFieldKey) : Option ℚ :=
  ((synonymMatch rawText).find? (fun p => p.1 = k)).map (fun p => p.2)

/-! ## Financial extraction result assembly (`extractFinancialFields`) -/

inductive ExtractionConfidence where
  | high
  | medium
  | low
deriving DecidableEq, Repr

structure FinancialExtractionResult where
  fields : List (OutputFieldKey × ℚ)
  unmappedFields : List (String × String)
  confidence : ExtractionConfidence
  note : String
deriving DecidableEq, Repr

/-- JSON-object lookup on the AI response's `mapped` object. -/
def mappedLookup (mapped : List (OutputFieldKey × ℚ)) (k : OutputFieldKey) : Option ℚ :=
  (mapped.find? (fun p => p.1 = k)).map (fun p => p.2)

/-- Embedding of `OUTPUT_FIELDS.filter((f) => mapped[f.key] != null).length`. -/
def mappedCountOf (mapped : List (OutputFieldKey × ℚ)) : Nat :=
  (OUTPUT_FIELDS.filter (fun f => (mappedLookup mapped f.key).isSome)).length

/-- Result assembly shared by the two Gemini strategies (multimodal and
text-based): confidence is `high` for at least 8 populated keys, `medium`
for at least 5, otherwise `low`. -/
def geminiResultOfMapped (mapped : List (OutputFieldKey × ℚ))
    (unmapped : List (String × String)) (note : String) : FinancialExtractionResult :=
  let mappedCount := mappedCountOf mapped
  { fields := mapped
    unmappedFields := unmapped
    confidence :=
      if 8 ≤ mappedCount then .high else if 5 ≤ mappedCount then .medium else .low
    note := note }

/-- Step 4 of `extractFinancialFields`: the synonym-map fallback result,
whose confidence is `medium` for at least 8 populated keys and `low`
otherwise (never `high`). -/
def synonymFallbackResult (rawText : String) (hasApiKey : Bool) : FinancialExtractionResult :=
  let synonymResult := synonymMatch rawText
  let mappedCount := synonymResult.length
  { fields := synonymResult
    unmappedFields := []
    confidence := if 8 ≤ mappedCount then .medium else .low
    note :=
      if hasApiKey then
        "Gemini unavailable; synonym matching found " ++ toString mappedCount ++ "/10 fields."
      else
        "GEMINI_API_KEY not configured; synonym matching found " ++ toString mappedCount
          ++ "/10 fields." }

/-! ## Mapping-memory fuzzy matcher (`autoApplyFromMemory` and helpers) -/

/-- Embedding of `normalize` from the mapping-memory module: lowercase, collapse
whitespace runs to one space, trim. -/
def normalize (s : String) : String :=
  String.mk (trimChars (collapseWsAux false (toLowerChars s.data)))

/-- The token separators of `wordSimilarity`: the `[\s\-_:,./]` class. -/
def isWordSep (c : Char) : Bool :=
  isJsSpace c || c = '-' || c = '_' || c = ':' || c = ',' || c = '.' || c = '/'

/-- Embedding of `split(/[\s\-_:,./]+/).filter(Boolean)`: the non-empty tokens between
separator runs.  The accumulator holds the current token reversed. -/
def tokenizeAux (cur : List Char) : List Char → List (List Char)
  | [] => if cur.isEmpty then [] else [cur.reverse]
  | c :: rest =>
    if isWordSep c then
      if cur.isEmpty then tokenizeAux [] rest
      else cur.reverse :: tokenizeAux [] rest
    else tokenizeAux (c :: cur) rest

/-- The word set (a JS `Set` in insertion order) of a label. -/
def wordSet (s : String) : List (List Char) :=
  dedupKeepFirst [] (tokenizeAux [] (normalize s).data)

/-- Embedding of `wordSimilarity`: word-overlap count over the larger word-set size. -/
def wordSimilarity (a b : String) : ℚ :=
  let wordsA := wordSet a
  let wordsB := wordSet b
  if wordsA.length = 0 ∨ wordsB.length = 0 then 0
  else ((wordsA.filter (fun w => w ∈ wordsB)).length : ℚ)
    / ((max wordsA.length wordsB.length : Nat) : ℚ)

/-- The loop of `matchScore`: exact match returns 1.0 immediately;
containment raises the best score to 0.85 and skips the overlap test;
word overlap of at least 0.6 contributes `0.5 + sim * 0.3`. -/
def matchScoreAux (nf : List Char) (best : ℚ) : List String → ℚ
  | [] => best
  | known :: rest =>
    let kn := known.data
    if nf = kn then 1
    else if isInfixL kn nf || isInfixL nf kn then matchScoreAux nf (max best (85/100)) rest
    else
      let sim := wordSimilarity (String.mk nf) known
      if 3/5 ≤ sim then matchScoreAux nf (max best (1/2 + sim * (3/10))) rest
      else matchScoreAux nf best rest

def matchScore (fieldLabel : String) (e : MappingMemoryEntry) : ℚ :=
  matchScoreAux (normalize fieldLabel).data 0 e.sourceLabels

structure MatchCandidate where
  sourceKey : String
  sourceLabel : String
  sourceType : TType
  targetKey : String
  targetType : TType
  confidence : ℚ
  usageCount : Nat
deriving DecidableEq, Repr

structure MatchProposal where
  sourceKey : String
  sourceLabel : String
  sourceType : TType
  targetKey : String
  targetType : TType
  confidence : ℚ
deriving DecidableEq, Repr

def mkCandidate (field : ExtractedFieldIn) (e : MappingMemoryEntry) (score : ℚ) :
    MatchCandidate :=
  { sourceKey := field.id
    sourceLabel := field.label
    sourceType :=
      if e.sourceLabels.any (fun l => l = normalize field.label) then e.targetType
      else TType.field
    targetKey := e.targetKey
    targetType := e.targetType
    confidence := score
    usageCount := e.usageCount }

/-- Per-field best-entry selection of `autoApplyFromMemory`: entries scoring
below 0.5 are skipped; a strictly higher score, or an equal score with a
strictly higher usage count, replaces the current best. -/
def bestMatchFor (entries : List MappingMemoryEntry) (field : ExtractedFieldIn) :
    Option MatchCandidate :=
  entries.foldl (fun bm e =>
    let score := matchScore field.label e
    if score < 1/2 then bm
    else
      match bm with
      | none => some (mkCandidate field e score)
      | some b =>
        if b.confidence < score ∨ (score = b.confidence ∧ b.usageCount < e.usageCount) then
          some (mkCandidate field e score)
        else bm) none

def candidatesOf (store : MappingMemoryStore) (fields : List ExtractedFieldIn) :
    List MatchCandidate :=
  fields.filterMap (bestMatchFor store.entries)

/-- JS `Map.set`, which keeps the original position of an existing key and
appends a new key at the end. -/
def mapSetKeepPos (k : String) (v : MatchCandidate) :
    List (String × MatchCandidate) → List (String × MatchCandidate)
  | [] => [(k, v)]
  | (k', v') :: rest =>
    if k' = k then (k', v) :: rest else (k', v') :: mapSetKeepPos k v rest

/-- One step of the target-key deduplication: keep the higher-confidence
candidate, breaking confidence ties by the higher usage count. -/
def dedupStep (m : List (String × MatchCandidate)) (c : MatchCandidate) :
    List (String × MatchCandidate) :=
  match m.find? (fun p => p.1 = c.targetKey) with
  | none => mapSetKeepPos c.targetKey c m
  | some p =>
    if p.2.confidence < c.confidence
        ∨ (c.confidence = p.2.confidence ∧ p.2.usageCount < c.usageCount) then
      mapSetKeepPos c.targetKey c m
    else m

def byTargetFold (cs : List MatchCandidate) : List (String × MatchCandidate) :=
  cs.foldl dedupStep []

/-- Stable insertion preserving descending confidence, modelling the stable
JS `sort((a, b) => b.confidence - a.confidence)`. -/
def insertDesc (x : MatchCandidate) : List MatchCandidate → List MatchCandidate
  | [] => [x]
  | y :: ys => if y.confidence < x.confidence then x :: y :: ys else y :: insertDesc x ys

def sortDesc : List MatchCandidate → List MatchCandidate
  | [] => []
  | x :: xs => insertDesc x (sortDesc xs)

def stripUsage (c : MatchCandidate) : MatchProposal :=
  ⟨c.sourceKey, c.sourceLabel, c.sourceType, c.targetKey, c.targetType, c.confidence⟩

/-- Embedding of `autoApplyFromMemory`: per-field best matches, deduplicated by target
key, sorted by descending confidence, usage counts stripped. -/
def autoApplyFromMemory (store : MappingMemoryStore) (fields : List ExtractedFieldIn) :
    List MatchProposal :=
  if store.entries.isEmpty || fields.isEmpty then []
  else (sortDesc ((byTargetFold (candidatesOf store fields)).map (fun p => p.2))).map stripUsage

/-- Invariant of the target-key deduplication fold: over processed
candidates `cs`, the association list `m` has distinct keys, each value
carries its key as target, comes from `cs`, lexicographically dominates
every processed candidate with its target (confidence first, then usage
count), and every processed candidate's target owns some entry. -/
def DedupInv (cs : List MatchCandidate) (m : List (String × MatchCandidate)) : Prop :=
  (m.map Prod.fst).Nodup
    ∧ (∀ p ∈ m, p.2.targetKey = p.1)
    ∧ (∀ p ∈ m, p.2 ∈ cs)
    ∧ (∀ p ∈ m, ∀ c ∈ cs, c.targetKey = p.1 →
        (c.confidence < p.2.confidence
          ∨ (c.confidence = p.2.confidence ∧ c.usageCount ≤ p.2.usageCount)))
    ∧ (∀ c ∈ cs, ∃ p ∈ m, p.1 = c.targetKey)

/-! ## Generic label/value parser (`extractFieldsFromText` and helpers) -/

/-- The label character class shared by the four line rules of
`extractFromLine`: alphanumerics, underscore, whitespace, and the symbols
hyphen, slash, parentheses, dot, ampersand, quotes, comma, percent, space,
hash, at-sign. -/
def ruleLabelChar (c : Char) : Bool :=
  c.isAlphanum || c = '_' || isJsSpace c || c = '-' || c = '/' || c = '(' || c = ')'
    || c = '.' || c = '&' || c = Char.ofNat 39 || c = '"' || c = ',' || c = '%' || c = ' '
    || c = '#' || c = '@'

def stripTrailingColonDash (cs : List Char) : List Char :=
  (cs.reverse.dropWhile (fun c => c = ':' || c = '-')).reverse

/-- Embedding of `sanitizeLabel`: collapse whitespace, strip a trailing `[:\-]+` run, trim. -/
def sanitizeLabel (cs : List Char) : String :=
  String.mk (trimChars (stripTrailingColonDash (collapseWsChars cs)))

/-- Embedding of `sanitizeValue`: collapse whitespace, trim. -/
def sanitizeValue (cs : List Char) : String :=
  String.mk (trimChars (collapseWsChars cs))

/-- Embedding of `looksLikeAmount`: in the test regex
`\(?-?[₹$€£¥]?\s?\d[\d,]*(?:\.\d+)?\s?%?\)?` every component except the one
digit is optional, so the substring test reduces to digit presence. -/
def looksLikeAmount (cs : List Char) : Bool := cs.any Char.isDigit

/-- Anchored match of `^([A-Za-z][class]{1,120})\s*SEP\s*(.+)$` where `SEP`
is a one-character separator outside the label class (`:` or `=`/`|`).  The
greedy label group runs to the first character outside its class, which must
be the separator; when the 120-character cap binds, the surplus class
characters must be whitespace for the `\s*` to absorb.  The value is the
remainder after the separator's trailing whitespace; it must be non-empty
and free of line terminators (which `.` cannot match). -/
def sepSplit (isSep : Char → Bool) (cs : List Char) : Option (List Char × List Char) :=
  match cs with
  | [] => none
  | c0 :: rest =>
    if !c0.isAlpha then none
    else
      let run := rest.takeWhile ruleLabelChar
      match rest.drop run.length with
      | s :: tail =>
        if !isSep s then none
        else if run.length = 0 then none
        else
          let v := tail.dropWhile isJsSpace
          if !v.isEmpty && v.all (fun c => c ≠ '\n' ∧ c ≠ '\r') then
            if run.length ≤ 120 then some (c0 :: run, v)
            else if (run.drop 120).all isJsSpace then some (c0 :: run.take 120, v)
            else none
          else none
      | [] => none

/-- Anchored match of the trailing-amount value group
`[₹$€£¥]?\s?\(?-?\d[\d,]*(?:\.\d+)?\)?\s?%?` against a whole string; the
optional components' lead characters are pairwise disjoint from their
successors', so a greedy scan is exact. -/
def amountValueFull (cs : List Char) : Bool :=
  let r1 := match cs with
    | c :: t => if isCurrencyChar c then t else cs
    | [] => ([] : List Char)
  let r2 := match r1 with
    | c :: t => if isJsSpace c then t else r1
    | [] => ([] : List Char)
  let r3 := match r2 with
    | '(' :: t => t
    | _ => r2
  let r4 := match r3 with
    | '-' :: t => t
    | _ => r3
  match r4 with
  | c :: t =>
    if !c.isDigit then false
    else
      let r5 := t.dropWhile (fun d => d.isDigit || d = ',')
      let r6 := match r5 with
        | '.' :: u =>
          (match u.span Char.isDigit with
           | ([], _) => r5
           | (_, v) => v)
        | _ => r5
      let r7 := match r6 with
        | ')' :: u => u
        | _ => r6
      let r8 := match r7 with
        | c2 :: u => if isJsSpace c2 then u else r7
        | [] => ([] : List Char)
      let r9 := match r8 with
        | '%' :: u => u
        | _ => r8
      r9.isEmpty
  | [] => false

/-- Anchored match of `^([A-Za-z][class]{2,120})\s+(amount)$`.  The label
group is greedy, so the longest label admitting a whitespace gap and a full
amount remainder wins. -/
def trailingNumberSplit (cs : List Char) : Option (List Char × List Char) :=
  match cs with
  | [] => none
  | c0 :: rest =>
    if !c0.isAlpha then none
    else
      let run := rest.takeWhile ruleLabelChar
      let maxG := min run.length 120
      let fit := fun (g : Nat) =>
        let tail := rest.drop g
        let ws := tail.takeWhile isJsSpace
        decide (1 ≤ ws.length) && amountValueFull (tail.drop ws.length)
      match (List.range (maxG + 1)).reverse.find? (fun g => decide (2 ≤ g) && fit g) with
      | some g => some (c0 :: rest.take g, (rest.drop g).dropWhile isJsSpace)
      | none => none

/-- The `\s{2,}(.+)$` part of the wide-gap rule applied after a candidate
label: at least two whitespace characters, then a non-empty remainder; when
the whitespace run reaches the end of the line, the greedy `\s{2,}` gives
one character back to `.+` provided at least three remain. -/
def wideGapValue (tail : List Char) : Option (List Char) :=
  let ws := tail.takeWhile isJsSpace
  let rest2 := tail.drop ws.length
  if ws.length < 2 then none
  else if !rest2.isEmpty then
    if rest2.all (fun c => c ≠ '\n' ∧ c ≠ '\r') then some rest2 else none
  else if 3 ≤ ws.length then
    match tail.getLast? with
    | some c => if c ≠ '\n' ∧ c ≠ '\r' then some [c] else none
    | none => none
  else none

/-- Anchored match of `^([A-Za-z][class]{1,120}?)\s{2,}(.+)$`; the label
group is lazy, so the shortest valid label wins. -/
def wideGapSplit (cs : List Char) : Option (List Char × List Char) :=
  match cs with
  | [] => none
  | c0 :: rest =>
    if !c0.isAlpha then none
    else
      let run := rest.takeWhile ruleLabelChar
      let maxG := min run.length 120
      match (List.range (maxG + 1)).find?
          (fun g => decide (1 ≤ g) && (wideGapValue (rest.drop g)).isSome) with
      | some g => (wideGapValue (rest.drop g)).map (fun v => (c0 :: rest.take g, v))
      | none => none

/-- The tail character class of `isLikelyLabel` (note: it contains the
colon but lacks the at-sign, unlike the rule label class). -/
def likelyLabelTailChar (c : Char) : Bool :=
  c.isAlphanum || c = '_' || isJsSpace c || c = '-' || c = '/' || c = '(' || c = ')'
    || c = '.' || c = '&' || c = ':' || c = '#' || c = Char.ofNat 39 || c = '"' || c = ','
    || c = '%' || c = ' '

/-- Embedding of `isLikelyLabel`: 2 to 150 characters, not all of them outside
`[A-Za-z_]`, starting with a letter, remainder in the label tail class. -/
def isLikelyLabel (line : List Char) : Bool :=
  let t := trimChars line
  if t.isEmpty || decide (t.length < 2) || decide (150 < t.length) then false
  else if t.all (fun c => !(c.isAlpha || c = '_')) then false
  else
    match t with
    | c0 :: rest => c0.isAlpha && rest.all likelyLabelTailChar
    | [] => false

/-- The tail character class of `isLikelyValue`: alphanumerics, underscore,
whitespace, and the symbols hyphen, slash, parentheses, dot, comma, colon,
hash, quotes. -/
def likelyValueTailChar (c : Char) : Bool :=
  c.isAlphanum || c = '_' || c = '-' || c = '/' || c = '(' || c = ')' || c = '.'
    || c = ',' || c = ':' || c = '#' || c = Char.ofNat 39 || c = '"' || isJsSpace c

/-- Embedding of `isLikelyValue`: amount-shaped, or 2 to 301 characters starting with an
alphanumeric/currency character with the remainder in the value tail class. -/
def isLikelyValue (line : List Char) : Bool :=
  let t := trimChars line
  if t.isEmpty || decide (t.length < 1) || decide (300 < t.length) then false
  else if looksLikeAmount t then true
  else
    match t with
    | c0 :: rest =>
      (c0.isAlphanum || isCurrencyChar c0) && decide (1 ≤ rest.length)
        && decide (rest.length ≤ 300) && rest.all likelyValueTailChar
    | [] => false

structure LineCandidate where
  label : String
  value : String
  confidence : ℚ
deriving DecidableEq, Repr

def tryTrailing (trimmed : List Char) : Option LineCandidate :=
  match trailingNumberSplit trimmed with
  | some (l, v) =>
    if looksLikeAmount v then some ⟨sanitizeLabel l, sanitizeValue v, 82/100⟩ else none
  | none => none

def tryWideGap (trimmed : List Char) : Option LineCandidate :=
  match wideGapSplit trimmed with
  | some (l, v) =>
    if isLikelyValue v then some ⟨sanitizeLabel l, sanitizeValue v, 78/100⟩ else none
  | none => none

def tryAltSep (trimmed : List Char) : Option LineCandidate :=
  (sepSplit (fun c => c = '=' || c = '|') trimmed).map
    (fun p => ⟨sanitizeLabel p.1, sanitizeValue p.2, 78/100⟩)

/-- Embedding of `extractFromLine`: colon rule (0.90), trailing-amount rule (0.82),
wide-gap rule (0.78, gated by `isLikelyValue`), alternate-separator rule
(0.78), in that order. -/
def extractFromLine (line : List Char) : Option LineCandidate :=
  let trimmed := trimChars line
  if trimmed.isEmpty || decide (trimmed.length < 3) then none
  else
    ((sepSplit (fun c => c = ':') trimmed).map
        (fun p => (⟨sanitizeLabel p.1, sanitizeValue p.2, 9/10⟩ : LineCandidate))).orElse
      (fun _ => ((tryTrailing trimmed).orElse
        (fun _ => ((tryWideGap trimmed).orElse (fun _ => tryAltSep trimmed)))))

structure ExtractedField where
  id : String
  label : String
  value : String
  confidence : ℚ
deriving DecidableEq, Repr

/-- The dedup key `` `${label.toLowerCase()}::${value.toLowerCase()}` ``. -/
def dedupKeyLV (label value : String) : List Char :=
  toLowerChars label.data ++ ':' :: ':' :: toLowerChars value.data

def pushField (acc : List ExtractedField) (label value : String) (conf : ℚ) :
    List ExtractedField :=
  acc ++ [⟨"ef_" ++ toString (acc.length + 1), label, value, conf⟩]

/-- One iteration of the first (per-line) pass of `extractFieldsFromText`. -/
def pass1Step (st : List ExtractedField × List (List Char)) (line : List Char) :
    List ExtractedField × List (List Char) :=
  match extractFromLine line with
  | none => st
  | some cand =>
    let key := dedupKeyLV cand.label cand.value
    if key ∈ st.2 then st
    else (pushField st.1 cand.label cand.value cand.confidence, key :: st.2)

/-- One iteration of the second (adjacent-pair) pass: label-looking line
followed by a value-looking line that carries no colon, at confidence 0.72. -/
def pass2Step (st : List ExtractedField × List (List Char)) (pair : List Char × List Char) :
    List ExtractedField × List (List Char) :=
  if !(isLikelyLabel pair.1) || !(isLikelyValue pair.2) then st
  else if isInfixL [':'] pair.2 then st
  else
    let label := sanitizeLabel pair.1
    let value := sanitizeValue pair.2
    let key := dedupKeyLV label value
    if key ∈ st.2 then st
    else (pushField st.1 label value (72/100), key :: st.2)

/-- The two structured passes, returning the field list and the dedup set. -/
def structuredPass (lines : List (List Char)) : List ExtractedField × List (List Char) :=
  (lines.zip (lines.drop 1)).foldl pass2Step (lines.foldl pass1Step ([], []))

/-- One iteration of the raw-line fallback loop (`line::` dedup keys,
confidence 0.35, labels `Line N`). -/
def fallbackStep (st : List ExtractedField × List (List Char)) (line : List Char) :
    List ExtractedField × List (List Char) :=
  let value := sanitizeValue line
  let key := 'l' :: 'i' :: 'n' :: 'e' :: ':' :: ':' :: toLowerChars value.data
  if key ∈ st.2 then st
  else
    (st.1 ++ [⟨"ef_" ++ toString (st.1.length + 1), "Line " ++ toString (st.1.length + 1),
      value, 35/100⟩], key :: st.2)

/-- Embedding of `extractFieldsFromText`: the structured passes, then — only when they
produce nothing and at least one line exists — the raw-line fallback over
lines of length at least 4, capped to the first 60. -/
def extractFieldsFromText (text : String) : List ExtractedField :=
  let lines := cleanLines text
  let st := structuredPass lines
  if st.1.isEmpty && !lines.isEmpty then
    (((lines.filter (fun l => decide (4 ≤ l.length))).take 60).foldl fallbackStep st).1
  else st.1

/-! ## Observers and concrete example data used by the theorems -/

/-- The entry a JS `entries.find((e) => e.targetKey === t)` returns. -/
def entryFor (store : MappingMemoryStore) (t : String) : Option MappingMemoryEntry :=
  store.entries.find? (fun e => e.targetKey = t)

def usageOf (store : MappingMemoryStore) (t : String) : Nat :=
  ((entryFor store t).map (fun e => e.usageCount)).getD 0

def labelsOf (store : MappingMemoryStore) (t : String) : List String :=
  ((entryFor store t).map (fun e => e.sourceLabels)).getD []

/-- A store with two entries: target `t` knows the variant `alpha beta`,
target `u` knows the variant `alpha`. -/
def exStoreTU : MappingMemoryStore :=
  ⟨"tenant", [⟨"t", TType.field, ["alpha beta"], 1, "d"⟩,
    ⟨"u", TType.field, ["alpha"], 1, "d"⟩], "d"⟩

/-- Two extracted fields with the same label `alpha`. -/
def exFieldsAA : List ExtractedFieldIn := [⟨"f1", "alpha", "1"⟩, ⟨"f2", "alpha", "2"⟩]

/-- An empty tenant store. -/
def exEmptyStore : MappingMemoryStore := ⟨"tenant", [], "d"⟩

/-- A store whose only entry has the single source label `x`. -/
def exStoreX : MappingMemoryStore :=
  ⟨"tenant", [⟨"k", TType.field, ["x"], 1, "d"⟩], "d"⟩

/-- A synonym-matcher input populating exactly 8 of the 10 canonical keys. -/
def exEightFieldText : String :=
  "owners capital 100\ntotal liabilities 100\npbit 100\ninterest 100\n" ++
    "accounts payable 100\npurchases 100\naccounts receivable 100\nsales 100"

/-- An AI `mapped` object populating exactly 8 of the 10 canonical keys. -/
def exEightMapped : List (OutputFieldKey × ℚ) :=
  [(.owners_capital, 1), (.total_liabilities, 2), (.pbit, 3), (.interest, 4),
   (.accounts_payable, 5), (.purchases, 6), (.accounts_receivable, 7), (.dealer_turnover, 8)]

/-! ## Helper lemmas -/

theorem mem_filterMap_key (fs : List OutputField) (entries : List LineEntry)
    (p : OutputFieldKey × ℚ)
    (hp : p ∈ fs.filterMap (fun f =>
      (entries.find? (synMatchesEntry f.key)).map (fun e => (f.key, e.num)))) :
    p.1 ∈ fs.map OutputField.key := by
  rcases List.mem_filterMap.mp hp with ⟨f, hf, hmap⟩
  rcases Option.map_eq_some'.mp hmap with ⟨e, _, rfl⟩
  exact List.mem_map.mpr ⟨f, hf, rfl⟩

theorem find?_filterMap_keyed (entries : List LineEntry) (fs : List OutputField)
    (k : OutputFieldKey) (hk : k ∈ fs.map OutputField.key)
    (hnd : (fs.map OutputField.key).Nodup) :
    ((fs.filterMap (fun f =>
        (entries.find? (synMatchesEntry f.key)).map (fun e => (f.key, e.num)))).find?
          (fun p => p.1 = k)).map (fun p => p.2)
      = (entries.find? (synMatchesEntry k)).map LineEntry.num := by
  induction fs with
  | nil => simp at hk
  | cons f fs ih =>
    rw [List.map_cons, List.nodup_cons] at hnd
    by_cases hfk : f.key = k
    · subst hfk
      cases hopt : entries.find? (synMatchesEntry f.key) with
      | none =>
        rw [List.filterMap_cons, hopt]
        have hnone : (fs.filterMap (fun f =>
            (entries.find? (synMatchesEntry f.key)).map (fun e => (f.key, e.num)))).find?
              (fun p => p.1 = f.key) = none := by
          rw [List.find?_eq_none]
          intro p hp hpk
          exact hnd.1 (by simpa [of_decide_eq_true hpk] using mem_filterMap_key fs entries p hp)
        simp [hnone, hopt]
      | some e =>
        rw [List.filterMap_cons, hopt]
        simp [hopt]
    · have hk' : k ∈ fs.map OutputField.key := by
        rcases List.mem_cons.mp hk with h | h
        · exact absurd h.symm hfk
        · exact h
      rw [List.filterMap_cons]
      cases hopt : entries.find? (synMatchesEntry f.key) with
      | none => exact ih hk' hnd.2
      | some e =>
        rw [Option.map_some']
        rw [List.find?_cons_of_neg _ (by simpa using hfk)]
        exact ih hk' hnd.2

/-- First-hit characterization of `synonymMatch`, shared by several
theorems: each canonical key is populated from the first line entry
containing one of its synonyms, independently of the other keys. -/
theorem synonymLookup_eq_first_hit (rawText : String) (k : OutputFieldKey) :
    synonymLookup rawText k
      = ((lineEntries rawText).find? (synMatchesEntry k)).map LineEntry.num := by
  have hk : k ∈ OUTPUT_FIELDS.map OutputField.key := by cases k <;> decide
  have hnd : (OUTPUT_FIELDS.map OutputField.key).Nodup := by decide
  simpa [synonymLookup, synonymMatch] using
    find?_filterMap_keyed (lineEntries rawText) OUTPUT_FIELDS k hk hnd

/-! ## Claim theorems -/

/-- C6 counterexample: the single line `Sundry Creditors Sundry Debtors 500`
populates both `accounts_payable` and `accounts_receivable`, so a line with a
detectable amount is not claimed exclusively by the first canonical field in
order that hits it. -/
theorem synonym_line_not_claimed_counterexample :
    (lineEntries "Sundry Creditors Sundry Debtors 500").length = 1
      ∧ synonymMatch "Sundry Creditors Sundry Debtors 500"
          = [(OutputFieldKey.accounts_payable, 500),
             (OutputFieldKey.accounts_receivable, 500)] := by
  exact ⟨by decide, by decide⟩

/-- C6 (amended): within one canonical field the first matching synonym and
first matching line win, but fields scan the lines independently — a line is
not claimed, and the same line may populate several canonical fields. -/
theorem synonym_per_field_first_match (rawText : String) (k : OutputFieldKey) :
    synonymLookup rawText k
      = ((lineEntries rawText).find? (synMatchesEntry k)).map LineEntry.num :=
  synonymLookup_eq_first_hit rawText k

/-- C7: a line pairing a synonym alias with a well-formed amount populates
that canonical key; in particular `Sundry Creditors: 1,23,456.00` yields
`accounts_payable = 123456` (positive), commas are stripped, parenthesized
amounts are negated and an explicit sign is preserved. -/
theorem synonym_alias_amount_extraction :
    (∀ (rawText : String) (k : OutputFieldKey),
        ((lineEntries rawText).find? (synMatchesEntry k)).isSome = true →
          (synonymLookup rawText k).isSome = true)
      ∧ synonymMatch "Sundry Creditors: 1,23,456.00"
          = [(OutputFieldKey.accounts_payable, 123456)]
      ∧ (0 : ℚ) < 123456
      ∧ lineEntries "Total (1,234)" = [⟨"total (1,234)".data, -1234⟩]
      ∧ lineEntries "Loss -5,000" = [⟨"loss -5,000".data, -5000⟩] := by
  refine ⟨fun rawText k h => ?_, by decide, by decide, by decide, by decide⟩
  rw [synonymLookup_eq_first_hit]
  simpa using h

theorem synonym_alias_amount_extraction_witness :
    (synonymLookup "Sundry Creditors: 1,23,456.00" OutputFieldKey.accounts_payable).isSome
      = true :=
  synonym_alias_amount_extraction.1 "Sundry Creditors: 1,23,456.00"
    OutputFieldKey.accounts_payable (by decide)

/-- C1 counterexample: a synonym-fallback run populating exactly 8 of the 10
canonical keys is graded `medium`, not `high` — the banding is not
strategy-independent. -/
theorem confidence_synonym_fallback_counterexample :
    mappedCountOf (synonymFallbackResult exEightFieldText false).fields = 8
      ∧ (synonymFallbackResult exEightFieldText false).confidence
          = ExtractionConfidence.medium
      ∧ (synonymFallbackResult exEightFieldText false).confidence
          ≠ ExtractionConfidence.high := by
  exact ⟨by decide, by decide, by decide⟩

/-- C1 (amended): the two Gemini strategies band the populated-key count as
at least 8 high, 5 to 7 medium, below 5 low; the synonym fallback instead
grades at least 8 as medium and everything else low. -/
theorem confidence_banding_by_strategy
    (mapped : List (OutputFieldKey × ℚ)) (unmapped : List (String × String))
    (note rawText : String) (hasKey : Bool) :
    ((8 ≤ mappedCountOf mapped →
        (geminiResultOfMapped mapped unmapped note).confidence = ExtractionConfidence.high)
      ∧ (5 ≤ mappedCountOf mapped → mappedCountOf mapped < 8 →
        (geminiResultOfMapped mapped unmapped note).confidence = ExtractionConfidence.medium)
      ∧ (mappedCountOf mapped < 5 →
        (geminiResultOfMapped mapped unmapped note).confidence = ExtractionConfidence.low))
    ∧ ((8 ≤ (synonymMatch rawText).length →
        (synonymFallbackResult rawText hasKey).confidence = ExtractionConfidence.medium)
      ∧ ((synonymMatch rawText).length < 8 →
        (synonymFallbackResult rawText hasKey).confidence = ExtractionConfidence.low)) := by
  refine ⟨⟨fun h => ?_, fun h5 h8 => ?_, fun h5 => ?_⟩, fun h => ?_, fun h => ?_⟩
  · simp [geminiResultOfMapped, h]
  · have h8' : ¬ 8 ≤ mappedCountOf mapped := by omega
    simp [geminiResultOfMapped, h5, h8']
  · have h8' : ¬ 8 ≤ mappedCountOf mapped := by omega
    have h5' : ¬ 5 ≤ mappedCountOf mapped := by omega
    simp [geminiResultOfMapped, h5', h8']
  · simp [synonymFallbackResult, h]
  · have h8' : ¬ 8 ≤ (synonymMatch rawText).length := by omega
    simp [synonymFallbackResult, h8']

theorem confidence_banding_by_strategy_witness :
    (geminiResultOfMapped exEightMapped [] "note").confidence = ExtractionConfidence.high :=
  (confidence_banding_by_strategy exEightMapped [] "note" "" false).1.1 (by decide)

/-- C8: at least three non-empty trimmed lines, at most three distinct
lowercased lines, and an average distinct-line length below 40 characters
classify the text as watermark-only. -/
theorem watermark_low_diversity_flags (text : String)
    (h3 : 3 ≤ (cleanLines text).length)
    (hu : (dedupKeepFirst [] ((cleanLines text).map toLowerChars)).length ≤ 3)
    (havg : (((dedupKeepFirst [] ((cleanLines text).map toLowerChars)).map List.length).sum : ℚ)
        / ((dedupKeepFirst [] ((cleanLines text).map toLowerChars)).length : ℚ) < 40) :
    isWatermarkOnly text = true := by
  have hdef : isWatermarkOnly text =
      (if (cleanLines text).isEmpty then true
       else if (dedupKeepFirst [] ((cleanLines text).map toLowerChars)).length ≤ 3
           ∧ 3 ≤ (cleanLines text).length then
         decide ((((dedupKeepFirst [] ((cleanLines text).map toLowerChars)).map
             List.length).sum : ℚ)
           / ((dedupKeepFirst [] ((cleanLines text).map toLowerChars)).length : ℚ) < 40)
       else false) := rfl
  rw [hdef]
  by_cases he : (cleanLines text).isEmpty
  · rw [if_pos he]
  · rw [if_neg he, if_pos ⟨hu, h3⟩]
    exact decide_eq_true havg

theorem watermark_low_diversity_flags_witness :
    isWatermarkOnly (String.intercalate "\n" (List.replicate 20 "CompanyScan")) = true :=
  watermark_low_diversity_flags (String.intercalate "\n" (List.replicate 20 "CompanyScan"))
    (by decide) (by decide) (by decide)

theorem find?_learnEntries (tk : String) (tt : TType) (lbl now : String)
    (l : List MappingMemoryEntry) :
    (learnEntries tk tt lbl now l).find? (fun e => e.targetKey = tk)
      = some (match l.find? (fun e => e.targetKey = tk) with
          | some e =>
            { e with
              sourceLabels := if lbl ∈ e.sourceLabels then e.sourceLabels
                else e.sourceLabels ++ [lbl]
              usageCount := e.usageCount + 1
              lastUsed := now
              targetType := tt }
          | none => ⟨tk, tt, [lbl], 1, now⟩) := by
  induction l with
  | nil => simp [learnEntries]
  | cons e rest ih =>
    by_cases h : e.targetKey = tk
    · simp [learnEntries, h]
    · simp only [learnEntries, if_neg h]
      rw [List.find?_cons_of_neg _ (by simpa using h), List.find?_cons_of_neg _ (by simpa using h)]
      exact ih

/-- A learn call over a single well-formed mapping row reduces to one
`learnEntries` update of the store's entry list. -/
theorem learnMappings_single (store : MappingMemoryStore) (m : MappingRow)
    (fields : List ExtractedFieldIn) (now : String)
    (hsk : m.sourceKey ≠ "") (htk : m.targetKey ≠ "")
    (hnl : normLT (resolveRawLabel fields m.sourceKey) ≠ "") :
    (learnMappings store [m] fields now).entries
      = learnEntries m.targetKey m.targetType
          (normLT (resolveRawLabel fields m.sourceKey)) now store.entries := by
  show (learnOne fields now store m).entries = _
  simp [learnOne, hsk, htk, hnl]

/-- C3: learning the same resolved `(label, target)` pair twice raises the
target entry's usage count by exactly 2 over its prior value (0 when the
entry did not exist), while the label list gains exactly one element when
the normalized label was unknown and is unchanged otherwise. -/
theorem learn_twice_monotonic (store : MappingMemoryStore) (m : MappingRow)
    (fields : List ExtractedFieldIn) (now1 now2 : String)
    (hsk : m.sourceKey ≠ "") (htk : m.targetKey ≠ "")
    (hnl : normLT (resolveRawLabel fields m.sourceKey) ≠ "") :
    usageOf (learnMappings (learnMappings store [m] fields now1) [m] fields now2) m.targetKey
        = usageOf store m.targetKey + 2
      ∧ (labelsOf (learnMappings (learnMappings store [m] fields now1) [m] fields now2)
            m.targetKey).length
          = (labelsOf store m.targetKey).length
            + (if normLT (resolveRawLabel fields m.sourceKey) ∈ labelsOf store m.targetKey
               then 0 else 1)
      ∧ (normLT (resolveRawLabel fields m.sourceKey) ∈ labelsOf store m.targetKey →
          labelsOf (learnMappings (learnMappings store [m] fields now1) [m] fields now2)
              m.targetKey
            = labelsOf store m.targetKey) := by
  unfold usageOf labelsOf entryFor
  rw [learnMappings_single _ _ _ _ hsk htk hnl, learnMappings_single _ _ _ _ hsk htk hnl]
  rw [find?_learnEntries, find?_learnEntries]
  cases hE : store.entries.find? (fun e => e.targetKey = m.targetKey) with
  | none => simp
  | some e =>
    by_cases hmem : normLT (resolveRawLabel fields m.sourceKey) ∈ e.sourceLabels
    · simp [hmem]
    · simp [hmem]

theorem learn_twice_monotonic_witness :
    usageOf (learnMappings (learnMappings exEmptyStore
        [⟨TType.field, "cap", TType.field, "owners_capital"⟩] [] "n1")
        [⟨TType.field, "cap", TType.field, "owners_capital"⟩] [] "n2") "owners_capital"
      = usageOf exEmptyStore "owners_capital" + 2 :=
  (learn_twice_monotonic exEmptyStore ⟨TType.field, "cap", TType.field, "owners_capital"⟩
    [] "n1" "n2" (by decide) (by decide) (by decide)).1

/-- C10 counterexample: a row whose source key is the non-empty string of
one space, with no matching extracted field, is skipped entirely — the
store is left unchanged and no entry is created. -/
theorem learn_whitespace_key_counterexample :
    ((⟨TType.field, " ", TType.field, "k"⟩ : MappingRow).sourceKey ≠ "")
      ∧ learnMappings exEmptyStore [⟨TType.field, " ", TType.field, "k"⟩] [] "n"
          = exEmptyStore := by
  exact ⟨by decide, by decide⟩

/-- C10 (amended): a mapping row with non-empty source and target keys is
always learned provided the resolved label is non-empty after lowercasing
and trimming; the stored variant is the resolved label's lowercased trimmed
form, and when the source key matches no field id or label verbatim, the
resolved label is the source key itself. -/
theorem learn_never_skips_resolvable (store : MappingMemoryStore) (m : MappingRow)
    (fields : List ExtractedFieldIn) (now : String)
    (hsk : m.sourceKey ≠ "") (htk : m.targetKey ≠ "")
    (hnl : normLT (resolveRawLabel fields m.sourceKey) ≠ "") :
    (∃ e, e ∈ (learnMappings store [m] fields now).entries
        ∧ e.targetKey = m.targetKey
        ∧ normLT (resolveRawLabel fields m.sourceKey) ∈ e.sourceLabels)
      ∧ ((∀ f ∈ fields, f.id ≠ m.sourceKey ∧ f.label ≠ m.sourceKey) →
          resolveRawLabel fields m.sourceKey = m.sourceKey) := by
  constructor
  · rw [learnMappings_single _ _ _ _ hsk htk hnl]
    have hfind := find?_learnEntries m.targetKey m.targetType
      (normLT (resolveRawLabel fields m.sourceKey)) now store.entries
    refine ⟨_, List.mem_of_find?_eq_some hfind, ?_, ?_⟩
    · cases hE : store.entries.find? (fun e => e.targetKey = m.targetKey) with
      | none => simp [hE]
      | some e =>
        have := List.find?_some hE
        simp only [hE]
        exact of_decide_eq_true this
    · cases hE : store.entries.find? (fun e => e.targetKey = m.targetKey) with
      | none => simp [hE]
      | some e =>
        by_cases hmem : normLT (resolveRawLabel fields m.sourceKey) ∈ e.sourceLabels
        · simp [hE, hmem]
        · simp [hE, hmem]
  · intro h
    have hnone : mapGetLast (idToLabelPairs fields) m.sourceKey = none := by
      unfold mapGetLast
      rw [List.find?_eq_none.mpr ?_]
      · rfl
      intro p hp
      rw [List.mem_reverse] at hp
      rcases List.mem_flatten.mp hp with ⟨l, hl, hpl⟩
      rcases List.mem_map.mp hl with ⟨f, hf, rfl⟩
      have hids := h f hf
      simp only [List.mem_cons, List.not_mem_nil, or_false] at hpl
      rcases hpl with rfl | rfl
      · simpa using hids.1
      · simpa using hids.2
    unfold resolveRawLabel
    rw [hnone]

theorem learn_never_skips_resolvable_witness :
    "custom label" ∈ labelsOf (learnMappings exEmptyStore
        [⟨TType.field, "Custom Label", TType.field, "k"⟩] [] "n") "k" := by
  obtain ⟨e, hmem, htkE, hlbl⟩ := (learn_never_skips_resolvable exEmptyStore
    ⟨TType.field, "Custom Label", TType.field, "k"⟩ [] "n"
    (by decide) (by decide) (by decide)).1
  have hent : (learnMappings exEmptyStore
      [⟨TType.field, "Custom Label", TType.field, "k"⟩] [] "n").entries
        = [⟨"k", TType.field, ["custom label"], 1, "n"⟩] := by decide
  rw [hent] at hmem
  have he : e = ⟨"k", TType.field, ["custom label"], 1, "n"⟩ := List.mem_singleton.mp hmem
  subst he
  have hres : normLT (resolveRawLabel [] "Custom Label") = "custom label" := by decide
  rw [hres] at hlbl
  have hl : labelsOf (learnMappings exEmptyStore
      [⟨TType.field, "Custom Label", TType.field, "k"⟩] [] "n") "k"
        = ["custom label"] := by decide
  rw [hl]
  exact hlbl

theorem nodup_appendIfAbsent (l : List String) (x : String) (h : l.Nodup) :
    (if x ∈ l then l else l ++ [x]).Nodup := by
  by_cases hx : x ∈ l
  · simpa [hx]
  · simp [hx, List.nodup_append, h]

theorem nodup_learnEntries (tk : String) (tt : TType) (lbl now : String)
    (l : List MappingMemoryEntry) (h : ∀ e ∈ l, e.sourceLabels.Nodup) :
    ∀ e ∈ learnEntries tk tt lbl now l, e.sourceLabels.Nodup := by
  induction l with
  | nil =>
    intro e he
    simp only [learnEntries, List.mem_singleton] at he
    subst he
    simp
  | cons a rest ih =>
    intro e he
    by_cases ha : a.targetKey = tk
    · simp only [learnEntries, if_pos ha] at he
      rcases List.mem_cons.mp he with rfl | hrest
      · exact nodup_appendIfAbsent _ _ (h a (List.mem_cons_self a rest))
      · exact h e (List.mem_cons_of_mem a hrest)
    · simp only [learnEntries, if_neg ha] at he
      rcases List.mem_cons.mp he with rfl | hrest
      · exact h e (List.mem_cons_self _ _)
      · exact ih (fun e2 he2 => h e2 (List.mem_cons_of_mem a he2)) e hrest

theorem nodup_addLabelEntries (tk : String) (tt : TType) (lbl now : String)
    (l : List MappingMemoryEntry) (h : ∀ e ∈ l, e.sourceLabels.Nodup) :
    ∀ e ∈ addLabelEntries tk tt lbl now l, e.sourceLabels.Nodup := by
  induction l with
  | nil =>
    intro e he
    simp only [addLabelEntries, List.mem_singleton] at he
    subst he
    simp
  | cons a rest ih =>
    intro e he
    by_cases ha : a.targetKey = tk
    · simp only [addLabelEntries, if_pos ha] at he
      rcases List.mem_cons.mp he with rfl | hrest
      · exact nodup_appendIfAbsent _ _ (h a (List.mem_cons_self a rest))
      · exact h e (List.mem_cons_of_mem a hrest)
    · simp only [addLabelEntries, if_neg ha] at he
      rcases List.mem_cons.mp he with rfl | hrest
      · exact h e (List.mem_cons_self _ _)
      · exact ih (fun e2 he2 => h e2 (List.mem_cons_of_mem a he2)) e hrest

theorem nodup_learnOne (fields : List ExtractedFieldIn) (now : String)
    (store : MappingMemoryStore) (m : MappingRow)
    (h : ∀ e ∈ store.entries, e.sourceLabels.Nodup) :
    ∀ e ∈ (learnOne fields now store m).entries, e.sourceLabels.Nodup := by
  show ∀ e ∈ (if m.sourceKey = "" ∨ m.targetKey = "" then store
      else if normLT (resolveRawLabel fields m.sourceKey) = "" then store
      else { store with entries := (learnEntries m.targetKey m.targetType
        (normLT (resolveRawLabel fields m.sourceKey)) now store.entries) }).entries,
    e.sourceLabels.Nodup
  by_cases h1 : m.sourceKey = "" ∨ m.targetKey = ""
  · rw [if_pos h1]
    exact h
  · rw [if_neg h1]
    by_cases h2 : normLT (resolveRawLabel fields m.sourceKey) = ""
    · rw [if_pos h2]
      exact h
    · rw [if_neg h2]
      exact nodup_learnEntries _ _ _ _ _ h

theorem nodup_learnMappings (store : MappingMemoryStore) (ms : List MappingRow)
    (fields : List ExtractedFieldIn) (now : String)
    (h : ∀ e ∈ store.entries, e.sourceLabels.Nodup) :
    ∀ e ∈ (learnMappings store ms fields now).entries, e.sourceLabels.Nodup := by
  induction ms generalizing store with
  | nil => exact h
  | cons m ms ih =>
    show ∀ e ∈ (learnMappings (learnOne fields now store m) ms fields now).entries, _
    exact ih _ (nodup_learnOne _ _ _ _ h)

/-- C4 counterexample: two learned labels differing only in an internal
whitespace run coexist inside one entry; they are equal after the collapse
normalization, so deduplication is not performed modulo collapsed
whitespace. -/
theorem label_collapse_dedup_counterexample :
    labelsOf (learnMappings (learnMappings exEmptyStore
        [⟨TType.field, "a  b", TType.field, "k"⟩] [] "n")
        [⟨TType.field, "a b", TType.field, "k"⟩] [] "n") "k" = ["a  b", "a b"]
      ∧ normalize "a  b" = normalize "a b"
      ∧ ("a  b" : String) ≠ "a b" := by
  exact ⟨by decide, by decide, by decide⟩

/-- C4 (amended): learn and add-label preserve exact (lowercased, trimmed)
deduplication of every entry's label list — no entry ever holds two equal
stored labels — but labels differing in internal whitespace runs are
distinct for this purpose. -/
theorem label_dedup_exact_preserved (store : MappingMemoryStore)
    (ms : List MappingRow) (fields : List ExtractedFieldIn) (now : String)
    (tk : String) (tt : TType) (lbl now2 : String)
    (h : ∀ e ∈ store.entries, e.sourceLabels.Nodup) :
    (∀ e ∈ (learnMappings store ms fields now).entries, e.sourceLabels.Nodup)
      ∧ (∀ e ∈ (addSourceLabel store tk tt lbl now2).entries, e.sourceLabels.Nodup) := by
  refine ⟨nodup_learnMappings store ms fields now h, ?_⟩
  show ∀ e ∈ (if normLT lbl = "" then store
      else { store with
        entries := addLabelEntries tk tt (normLT lbl) now2 store.entries }).entries,
    e.sourceLabels.Nodup
  by_cases h2 : normLT lbl = ""
  · rw [if_pos h2]
    exact h
  · rw [if_neg h2]
    exact nodup_addLabelEntries _ _ _ _ _ h

theorem label_dedup_exact_preserved_witness :
    (labelsOf (addSourceLabel exStoreX "k" TType.field "x" "n") "k").Nodup := by
  have h := (label_dedup_exact_preserved exStoreX [] [] "n" "k" TType.field "x" "n"
    (by decide)).2
  unfold labelsOf entryFor
  cases hf : (addSourceLabel exStoreX "k" TType.field "x" "n").entries.find?
      (fun e => e.targetKey = "k") with
  | none => simp
  | some e => simpa using h e (List.mem_of_find?_eq_some hf)

theorem mem_updateFirst_of_find? (p : MappingMemoryEntry → Bool)
    (f : MappingMemoryEntry → MappingMemoryEntry) (l : List MappingMemoryEntry)
    (e : MappingMemoryEntry) (hf : l.find? p = some e) :
    ∀ x ∈ updateFirst p f l, x ∈ l ∨ x = f e := by
  induction l with
  | nil => simp [updateFirst]
  | cons a rest ih =>
    intro x hx
    by_cases ha : p a
    · rw [List.find?_cons_of_pos _ ha] at hf
      injection hf with hf
      subst hf
      simp only [updateFirst, if_pos ha] at hx
      rcases List.mem_cons.mp hx with rfl | hr
      · right
        rfl
      · left
        exact List.mem_cons_of_mem _ hr
    · rw [List.find?_cons_of_neg _ ha] at hf
      simp only [updateFirst, if_neg ha] at hx
      rcases List.mem_cons.mp hx with rfl | hr
      · left
        exact List.mem_cons_self _ _
      · rcases ih hf x hr with h1 | h1
        · left
          exact List.mem_cons_of_mem _ h1
        · right
          exact h1

/-- C5: when the prior store has no entry with an empty label list, a
remove-label call leaves none either; and when the removed label was the
last one of the first entry with that target key, no entry with that target
key survives — the entry is deleted, not kept empty. -/
theorem remove_last_label_deletes_entry (store : MappingMemoryStore) (tk lbl : String)
    (h : ∀ e ∈ store.entries, e.sourceLabels ≠ []) :
    (∀ e ∈ (removeSourceLabel store tk lbl).entries, e.sourceLabels ≠ [])
      ∧ (∀ e, entryFor store tk = some e →
          e.sourceLabels.filter (fun l2 => l2 ≠ normLT lbl) = [] →
          ∀ e2 ∈ (removeSourceLabel store tk lbl).entries, e2.targetKey ≠ tk) := by
  constructor
  · intro x hx
    simp only [removeSourceLabel] at hx
    split at hx
    · exact h x hx
    · rename_i e0 hf
      split at hx
      · rename_i hemp
        have hx' := List.mem_filter.mp hx
        rcases mem_updateFirst_of_find? _ _ _ _ hf x hx'.1 with h1 | h1
        · exact h x h1
        · exfalso
          have hp := List.find?_some hf
          have hk0 : e0.targetKey = tk := by simpa using hp
          have hxk := hx'.2
          subst h1
          simp only [Bool.not_eq_true'] at hxk
          exact absurd hk0 (of_decide_eq_false hxk)
      · rename_i hemp
        rcases mem_updateFirst_of_find? _ _ _ _ hf x hx with h1 | h1
        · exact h x h1
        · subst h1
          simpa using hemp
  · intro e he hfe e2 he2
    simp only [removeSourceLabel] at he2
    split at he2
    · rename_i hf
      rw [entryFor] at he
      rw [he] at hf
      cases hf
    · rename_i e0 hf
      rw [entryFor] at he
      rw [he] at hf
      injection hf with hf
      subst hf
      split at he2
      · have := (List.mem_filter.mp he2).2
        simp only [Bool.not_eq_true'] at this
        exact of_decide_eq_false this
      · rename_i hemp
        exact absurd hfe hemp

theorem remove_last_label_deletes_entry_witness :
    entryFor (removeSourceLabel exStoreX "k" "X ") "k" = none := by
  have h2 := (remove_last_label_deletes_entry exStoreX "k" "X " (by decide)).2
  cases hf : (removeSourceLabel exStoreX "k" "X ").entries.find?
      (fun e => e.targetKey = "k") with
  | none => exact hf
  | some e2 =>
    exfalso
    have hmem := List.mem_of_find?_eq_some hf
    have hp := List.find?_some hf
    have hk : e2.targetKey = "k" := by simpa using hp
    exact h2 ⟨"k", TType.field, ["x"], 1, "d"⟩ (by decide) (by decide) e2 hmem hk

theorem foldl_fst_append {α : Type}
    (step : List ExtractedField × List (List Char) → α → List ExtractedField × List (List Char))
    (hstep : ∀ st x, (step st x).1 = st.1 ∨ ∃ y, (step st x).1 = st.1 ++ [y])
    (ls : List α) (st : List ExtractedField × List (List Char)) :
    ∃ ext, (ls.foldl step st).1 = st.1 ++ ext := by
  induction ls generalizing st with
  | nil => exact ⟨[], by simp⟩
  | cons x ls ih =>
    rcases ih (step st x) with ⟨ext, hext⟩
    rcases hstep st x with h1 | ⟨y, h1⟩
    · refine ⟨ext, ?_⟩
      rw [List.foldl_cons, hext, h1]
    · refine ⟨y :: ext, ?_⟩
      rw [List.foldl_cons, hext, h1]
      simp

theorem grow_of_cases {α : Type}
    (step : List ExtractedField × List (List Char) → α → List ExtractedField × List (List Char))
    (hcases : ∀ st x, step st x = st ∨ ∃ y key, step st x = (st.1 ++ [y], key :: st.2)) :
    ∀ st x, (step st x).1 = st.1 ∨ ∃ y, (step st x).1 = st.1 ++ [y] := by
  intro st x
  rcases hcases st x with h | ⟨y, key, h⟩
  · left
    rw [h]
  · right
    exact ⟨y, by rw [h]⟩

theorem stall_of_cases {α : Type}
    (step : List ExtractedField × List (List Char) → α → List ExtractedField × List (List Char))
    (hcases : ∀ st x, step st x = st ∨ ∃ y key, step st x = (st.1 ++ [y], key :: st.2)) :
    ∀ st x, (step st x).1 = st.1 → step st x = st := by
  intro st x h
  rcases hcases st x with h1 | ⟨y, key, h1⟩
  · exact h1
  · exfalso
    rw [h1] at h
    have := congrArg List.length h
    simp at this

theorem foldl_fst_stall {α : Type}
    (step : List ExtractedField × List (List Char) → α → List ExtractedField × List (List Char))
    (hcases : ∀ st x, step st x = st ∨ ∃ y key, step st x = (st.1 ++ [y], key :: st.2))
    (ls : List α) (st : List ExtractedField × List (List Char))
    (h : (ls.foldl step st).1 = st.1) : ls.foldl step st = st := by
  induction ls generalizing st with
  | nil => rfl
  | cons x ls ih =>
    rw [List.foldl_cons] at h ⊢
    rcases grow_of_cases step hcases st x with h1 | ⟨y, h1⟩
    · rw [stall_of_cases step hcases st x h1] at h ⊢
      exact ih st h
    · exfalso
      rcases foldl_fst_append step (grow_of_cases step hcases) ls (step st x) with ⟨ext, hext⟩
      rw [hext, h1] at h
      have := congrArg List.length h
      simp at this

theorem pass1Step_cases (st : List ExtractedField × List (List Char)) (line : List Char) :
    pass1Step st line = st
      ∨ ∃ y key, pass1Step st line = (st.1 ++ [y], key :: st.2) := by
  simp only [pass1Step]
  split
  · left
    rfl
  · split
    · left
      rfl
    · right
      exact ⟨_, _, rfl⟩

theorem pass2Step_cases (st : List ExtractedField × List (List Char))
    (pair : List Char × List Char) :
    pass2Step st pair = st
      ∨ ∃ y key, pass2Step st pair = (st.1 ++ [y], key :: st.2) := by
  simp only [pass2Step]
  split
  · left
    rfl
  · split
    · left
      rfl
    · split
      · left
        rfl
      · right
        exact ⟨_, _, rfl⟩

theorem fallbackStep_cases (st : List ExtractedField × List (List Char)) (line : List Char) :
    fallbackStep st line = st
      ∨ ∃ key, fallbackStep st line
          = (st.1 ++ [⟨"ef_" ++ toString (st.1.length + 1),
              "Line " ++ toString (st.1.length + 1), sanitizeValue line, 35/100⟩],
            key :: st.2) := by
  simp only [fallbackStep]
  split
  · left
    rfl
  · right
    exact ⟨_, rfl⟩

theorem fallbackStep_cases' (st : List ExtractedField × List (List Char)) (line : List Char) :
    fallbackStep st line = st
      ∨ ∃ y key, fallbackStep st line = (st.1 ++ [y], key :: st.2) := by
  rcases fallbackStep_cases st line with h | ⟨key, h⟩
  · left
    exact h
  · right
    exact ⟨_, key, h⟩

/-- When the two structured passes produce no field, their dedup set is also
empty: pushes into the field list and the seen set are paired. -/
theorem structuredPass_empty_state (lines : List (List Char))
    (h : (structuredPass lines).1 = []) : structuredPass lines = ([], []) := by
  unfold structuredPass at h ⊢
  rcases foldl_fst_append pass2Step (grow_of_cases pass2Step pass2Step_cases)
    (lines.zip (lines.drop 1)) (lines.foldl pass1Step ([], [])) with ⟨ext2, h2⟩
  rcases foldl_fst_append pass1Step (grow_of_cases pass1Step pass1Step_cases)
    lines ([], []) with ⟨ext1, h1⟩
  have h1' : (lines.foldl pass1Step ([], [])).1 = ext1 := by simpa using h1
  have hh : ext1 ++ ext2 = [] := by
    rw [h2, h1'] at h
    exact h
  have he1 : ext1 = [] := (List.append_eq_nil.mp hh).1
  have he2 : ext2 = [] := (List.append_eq_nil.mp hh).2
  have hin : (lines.foldl pass1Step ([], [])).1 = ([] : List ExtractedField) := by
    rw [h1', he1]
  have hstall1 := foldl_fst_stall pass1Step pass1Step_cases lines ([], []) hin
  have hin2 : ((lines.zip (lines.drop 1)).foldl pass2Step
      (lines.foldl pass1Step ([], []))).1 = (lines.foldl pass1Step ([], [])).1 := by
    rw [h2, he2, List.append_nil]
  have hstall2 := foldl_fst_stall pass2Step pass2Step_cases
    (lines.zip (lines.drop 1)) (lines.foldl pass1Step ([], [])) hin2
  rw [hstall2, hstall1]

theorem foldl_fallback_conf (ls : List (List Char))
    (st : List ExtractedField × List (List Char))
    (h : ∀ f ∈ st.1, f.confidence = 35/100) :
    ∀ f ∈ (ls.foldl fallbackStep st).1, f.confidence = 35/100 := by
  induction ls generalizing st with
  | nil => exact h
  | cons x ls ih =>
    rw [List.foldl_cons]
    apply ih
    intro f hf
    rcases fallbackStep_cases st x with h1 | ⟨key, h1⟩
    · rw [h1] at hf
      exact h f hf
    · rw [h1] at hf
      rcases List.mem_append.mp hf with h2 | h2
      · exact h f h2
      · rw [List.mem_singleton.mp h2]

theorem foldl_fallback_length (ls : List (List Char))
    (st : List ExtractedField × List (List Char)) :
    (ls.foldl fallbackStep st).1.length ≤ st.1.length + ls.length := by
  induction ls generalizing st with
  | nil => simp
  | cons x ls ih =>
    rw [List.foldl_cons]
    have h1 : (fallbackStep st x).1.length ≤ st.1.length + 1 := by
      rcases fallbackStep_cases st x with h1 | ⟨key, h1⟩
      · rw [h1]
        omega
      · rw [h1]
        simp
    have h2 := ih (fallbackStep st x)
    simp only [List.length_cons]
    omega

theorem fallback_first_push (l0 : List Char) (ls : List (List Char)) :
    ((l0 :: ls).foldl fallbackStep ([], [])).1 ≠ [] := by
  rw [List.foldl_cons]
  rcases foldl_fst_append fallbackStep (grow_of_cases fallbackStep fallbackStep_cases')
    ls (fallbackStep ([], []) l0) with ⟨ext, hext⟩
  rw [hext]
  have hstep : (fallbackStep ([], []) l0).1
      = [⟨"ef_" ++ toString 1, "Line " ++ toString 1, sanitizeValue l0, 35/100⟩] := by
    simp [fallbackStep]
  rw [hstep]
  simp

/-- C9: when the structured passes find nothing but a line of length at
least 4 exists, the parser returns exactly the raw-line placeholder fields:
a non-empty list, capped at 60, every field at confidence 0.35. -/
theorem parser_fallback_on_zero_structured (text : String)
    (hz : (structuredPass (cleanLines text)).1 = [])
    (hl : ∃ l, l ∈ cleanLines text ∧ 4 ≤ l.length) :
    extractFieldsFromText text
        = ((((cleanLines text).filter (fun l => decide (4 ≤ l.length))).take 60).foldl
            fallbackStep ([], [])).1
      ∧ extractFieldsFromText text ≠ []
      ∧ (∀ f ∈ extractFieldsFromText text, f.confidence = 35/100)
      ∧ (extractFieldsFromText text).length ≤ 60 := by
  have hst : structuredPass (cleanLines text) = ([], []) := structuredPass_empty_state _ hz
  rcases hl with ⟨l, hlmem, hllen⟩
  have hne : (cleanLines text).isEmpty = false := by
    cases hcl : cleanLines text with
    | nil =>
      rw [hcl] at hlmem
      cases hlmem
    | cons a as => rfl
  have hdef : extractFieldsFromText text
      = ((((cleanLines text).filter (fun l => decide (4 ≤ l.length))).take 60).foldl
          fallbackStep ([], [])).1 := by
    show (if (structuredPass (cleanLines text)).1.isEmpty && !(cleanLines text).isEmpty
        then ((((cleanLines text).filter (fun l => decide (4 ≤ l.length))).take 60).foldl
          fallbackStep (structuredPass (cleanLines text))).1
        else (structuredPass (cleanLines text)).1) = _
    rw [hst, hne]
    rfl
  have hfl : l ∈ (cleanLines text).filter (fun l => decide (4 ≤ l.length)) :=
    List.mem_filter.mpr ⟨hlmem, by simpa using hllen⟩
  have hflne : (cleanLines text).filter (fun l => decide (4 ≤ l.length)) ≠ [] := by
    intro hcon
    rw [hcon] at hfl
    cases hfl
  refine ⟨hdef, ?_, ?_, ?_⟩
  · rw [hdef]
    cases htk : ((cleanLines text).filter (fun l => decide (4 ≤ l.length))).take 60 with
    | nil =>
      exfalso
      rcases List.take_eq_nil_iff.mp htk with h | h
      · cases h
      · exact hflne h
    | cons l0 rest => exact fallback_first_push l0 rest
  · rw [hdef]
    exact foldl_fallback_conf _ _ (by intro f hf; cases hf)
  · rw [hdef]
    have hlen := foldl_fallback_length
      (((cleanLines text).filter (fun l => decide (4 ≤ l.length))).take 60) ([], [])
    have hlen0 : (((((cleanLines text).filter (fun l => decide (4 ≤ l.length))).take 60).foldl
        fallbackStep ([], [])).1).length
          ≤ 0 + (((cleanLines text).filter (fun l => decide (4 ≤ l.length))).take 60).length :=
      hlen
    have htake : (((cleanLines text).filter (fun l => decide (4 ≤ l.length))).take 60).length
        ≤ 60 := List.length_take_le 60 _
    omega

theorem parser_fallback_on_zero_structured_witness :
    extractFieldsFromText "@@@@@"
        = ((((cleanLines "@@@@@").filter (fun l => decide (4 ≤ l.length))).take 60).foldl
            fallbackStep ([], [])).1
      ∧ (extractFieldsFromText "@@@@@").length ≤ 60 :=
  ⟨(parser_fallback_on_zero_structured "@@@@@" (by decide) (by decide)).1,
    (parser_fallback_on_zero_structured "@@@@@" (by decide) (by decide)).2.2.2⟩

theorem mapSetKeepPos_of_absent (k : String) (v : MatchCandidate)
    (m : List (String × MatchCandidate))
    (h : m.find? (fun p => p.1 = k) = none) :
    mapSetKeepPos k v m = m ++ [(k, v)] := by
  induction m with
  | nil => rfl
  | cons a rest ih =>
    obtain ⟨k1, v1⟩ := a
    by_cases hk : k1 = k
    · rw [List.find?_cons_of_pos _ (by simpa using hk)] at h
      cases h
    · rw [List.find?_cons_of_neg _ (by simpa using hk)] at h
      simp only [mapSetKeepPos, if_neg hk]
      rw [ih h]
      simp

theorem self_mem_mapSetKeepPos (k : String) (v : MatchCandidate)
    (m : List (String × MatchCandidate)) : (k, v) ∈ mapSetKeepPos k v m := by
  induction m with
  | nil => exact List.mem_singleton.mpr rfl
  | cons a rest ih =>
    obtain ⟨k1, v1⟩ := a
    by_cases hk : k1 = k
    · subst hk
      simp [mapSetKeepPos]
    · simp only [mapSetKeepPos, if_neg hk]
      exact List.mem_cons_of_mem _ ih

theorem mem_mapSetKeepPos (k : String) (v : MatchCandidate)
    (m : List (String × MatchCandidate)) (x : String × MatchCandidate)
    (hx : x ∈ mapSetKeepPos k v m) : x = (k, v) ∨ x ∈ m := by
  induction m with
  | nil =>
    left
    simpa [mapSetKeepPos] using hx
  | cons a rest ih =>
    obtain ⟨k1, v1⟩ := a
    by_cases hk : k1 = k
    · subst hk
      simp only [mapSetKeepPos, if_pos rfl] at hx
      rcases List.mem_cons.mp hx with rfl | hr
      · left
        rfl
      · right
        exact List.mem_cons_of_mem _ hr
    · simp only [mapSetKeepPos, if_neg hk] at hx
      rcases List.mem_cons.mp hx with rfl | hr
      · right
        exact List.mem_cons_self _ _
      · rcases ih hr with h1 | h1
        · left
          exact h1
        · right
          exact List.mem_cons_of_mem _ h1

theorem mem_mapSetKeepPos_of_ne (k : String) (v : MatchCandidate)
    (m : List (String × MatchCandidate)) (x : String × MatchCandidate)
    (hx : x ∈ m) (hne : x.1 ≠ k) : x ∈ mapSetKeepPos k v m := by
  induction m with
  | nil => cases hx
  | cons a rest ih =>
    obtain ⟨k1, v1⟩ := a
    rcases List.mem_cons.mp hx with rfl | hr
    · by_cases hk : k1 = k
      · exact absurd hk hne
      · simp only [mapSetKeepPos, if_neg hk]
        exact List.mem_cons_self _ _
    · by_cases hk : k1 = k
      · subst hk
        simp only [mapSetKeepPos, if_pos rfl]
        exact List.mem_cons_of_mem _ hr
      · simp only [mapSetKeepPos, if_neg hk]
        exact List.mem_cons_of_mem _ (ih hr)

theorem mem_mapSetKeepPos_eq_key (k : String) (v : MatchCandidate)
    (m : List (String × MatchCandidate)) (hnd : (m.map Prod.fst).Nodup)
    (x : String × MatchCandidate) (hx : x ∈ mapSetKeepPos k v m) (hxk : x.1 = k) :
    x = (k, v) := by
  induction m with
  | nil => simpa [mapSetKeepPos] using hx
  | cons a rest ih =>
    obtain ⟨k1, v1⟩ := a
    rw [List.map_cons, List.nodup_cons] at hnd
    by_cases hk : k1 = k
    · subst hk
      simp only [mapSetKeepPos, if_pos rfl] at hx
      rcases List.mem_cons.mp hx with rfl | hr
      · rfl
      · exfalso
        apply hnd.1
        rw [← hxk]
        exact List.mem_map.mpr ⟨x, hr, rfl⟩
    · simp only [mapSetKeepPos, if_neg hk] at hx
      rcases List.mem_cons.mp hx with rfl | hr
      · exact absurd hxk hk
      · exact ih hnd.2 hr

theorem keys_mapSetKeepPos_present (k : String) (v : MatchCandidate)
    (m : List (String × MatchCandidate)) (hk : k ∈ m.map Prod.fst) :
    (mapSetKeepPos k v m).map Prod.fst = m.map Prod.fst := by
  induction m with
  | nil => cases hk
  | cons a rest ih =>
    obtain ⟨k1, v1⟩ := a
    by_cases h1 : k1 = k
    · subst h1
      simp [mapSetKeepPos]
    · have hk2 : k ∈ rest.map Prod.fst := by
        rcases List.mem_cons.mp hk with h2 | h2
        · exact absurd h2.symm h1
        · exact h2
      simp only [mapSetKeepPos, if_neg h1, List.map_cons, ih hk2]

theorem eq_of_mem_of_keys_nodup (m : List (String × MatchCandidate))
    (hnd : (m.map Prod.fst).Nodup) (p q : String × MatchCandidate)
    (hp : p ∈ m) (hq : q ∈ m) (h : p.1 = q.1) : p = q := by
  induction m with
  | nil => cases hp
  | cons a rest ih =>
    rw [List.map_cons, List.nodup_cons] at hnd
    rcases List.mem_cons.mp hp with rfl | hp1
    · rcases List.mem_cons.mp hq with rfl | hq1
      · rfl
      · exfalso
        apply hnd.1
        rw [h]
        exact List.mem_map.mpr ⟨q, hq1, rfl⟩
    · rcases List.mem_cons.mp hq with rfl | hq1
      · exfalso
        apply hnd.1
        rw [← h]
        exact List.mem_map.mpr ⟨p, hp1, rfl⟩
      · exact ih hnd.2 hp1 hq1

theorem lex_trans_le_lt (ca cb cc : ℚ) (ua ub uc : Nat)
    (h1 : ca < cb ∨ (ca = cb ∧ ua ≤ ub))
    (h2 : cb < cc ∨ (cb = cc ∧ ub < uc)) :
    ca < cc ∨ (ca = cc ∧ ua ≤ uc) := by
  rcases h1 with h1 | ⟨he1, hu1⟩
  · rcases h2 with h2 | ⟨he2, hu2⟩
    · left
      exact lt_trans h1 h2
    · left
      exact he2 ▸ h1
  · rcases h2 with h2 | ⟨he2, hu2⟩
    · left
      exact he1 ▸ h2
    · right
      exact ⟨he1.trans he2, le_trans hu1 (le_of_lt hu2)⟩

theorem lex_of_not_better (cc ce : ℚ) (uc ue : Nat)
    (h : ¬ (ce < cc ∨ (cc = ce ∧ ue < uc))) :
    cc < ce ∨ (cc = ce ∧ uc ≤ ue) := by
  push_neg at h
  rcases lt_or_eq_of_le h.1 with h2 | h2
  · left
    exact h2
  · right
    exact ⟨h2, h.2 h2⟩

theorem dedupStep_inv (pre : List MatchCandidate) (m : List (String × MatchCandidate))
    (c : MatchCandidate) (h : DedupInv pre m) : DedupInv (pre ++ [c]) (dedupStep m c) := by
  obtain ⟨hnd, hkey, hmem, hdom, hcov⟩ := h
  cases hf : m.find? (fun p => p.1 = c.targetKey) with
  | none =>
    have heq : dedupStep m c = m ++ [(c.targetKey, c)] := by
      simp only [dedupStep, hf]
      exact mapSetKeepPos_of_absent _ _ _ hf
    rw [heq]
    have hknotin : c.targetKey ∉ m.map Prod.fst := by
      intro hin
      rcases List.mem_map.mp hin with ⟨p, hp, hpk⟩
      exact (List.find?_eq_none.mp hf p hp) (by simpa using hpk)
    refine ⟨?_, ?_, ?_, ?_, ?_⟩
    · rw [List.map_append]
      rw [List.nodup_append]
      refine ⟨hnd, List.nodup_singleton _, ?_⟩
      intro a ha hat
      simp only [List.map_cons, List.map_nil, List.mem_singleton] at hat
      subst hat
      exact hknotin ha
    · intro p hp
      rcases List.mem_append.mp hp with h1 | h1
      · exact hkey p h1
      · rw [List.mem_singleton.mp h1]
    · intro p hp
      rcases List.mem_append.mp hp with h1 | h1
      · exact List.mem_append_left _ (hmem p h1)
      · rw [List.mem_singleton.mp h1]
        exact List.mem_append_right _ (List.mem_singleton.mpr rfl)
    · intro p hp c2 hc2 hck
      rcases List.mem_append.mp hp with h1 | h1
      · rcases List.mem_append.mp hc2 with h2 | h2
        · exact hdom p h1 c2 h2 hck
        · exfalso
          rw [List.mem_singleton.mp h2] at hck
          apply hknotin
          rw [hck]
          exact List.mem_map.mpr ⟨p, h1, rfl⟩
      · have hp1 : p = (c.targetKey, c) := List.mem_singleton.mp h1
        subst hp1
        rcases List.mem_append.mp hc2 with h2 | h2
        · exfalso
          rcases hcov c2 h2 with ⟨q, hq, hq1⟩
          apply hknotin
          have hqk : q.1 = c.targetKey := by
            rw [hq1]
            exact hck
          exact List.mem_map.mpr ⟨q, hq, hqk⟩
        · rw [List.mem_singleton.mp h2]
          right
          exact ⟨rfl, le_refl _⟩
    · intro c2 hc2
      rcases List.mem_append.mp hc2 with h2 | h2
      · rcases hcov c2 h2 with ⟨q, hq, hq1⟩
        exact ⟨q, List.mem_append_left _ hq, hq1⟩
      · rw [List.mem_singleton.mp h2]
        exact ⟨(c.targetKey, c), List.mem_append_right _ (List.mem_singleton.mpr rfl), rfl⟩
  | some p0 =>
    have hp0m : p0 ∈ m := List.mem_of_find?_eq_some hf
    have hp0k : p0.1 = c.targetKey := by
      have := List.find?_some hf
      simpa using this
    have heq : dedupStep m c
        = if p0.2.confidence < c.confidence
            ∨ (c.confidence = p0.2.confidence ∧ p0.2.usageCount < c.usageCount)
          then mapSetKeepPos c.targetKey c m else m := by
      simp only [dedupStep, hf]
    rw [heq]
    by_cases hb : p0.2.confidence < c.confidence
        ∨ (c.confidence = p0.2.confidence ∧ p0.2.usageCount < c.usageCount)
    · rw [if_pos hb]
      have hb' : p0.2.confidence < c.confidence
          ∨ (p0.2.confidence = c.confidence ∧ p0.2.usageCount < c.usageCount) := by
        rcases hb with hb | ⟨hbe, hbu⟩
        · left
          exact hb
        · right
          exact ⟨hbe.symm, hbu⟩
      refine ⟨?_, ?_, ?_, ?_, ?_⟩
      · rw [keys_mapSetKeepPos_present _ _ _ (List.mem_map.mpr ⟨p0, hp0m, hp0k⟩)]
        exact hnd
      · intro p hp
        by_cases hpk : p.1 = c.targetKey
        · rw [mem_mapSetKeepPos_eq_key _ _ _ hnd p hp hpk]
        · have hpm : p ∈ m := by
            rcases mem_mapSetKeepPos _ _ _ p hp with h1 | h1
            · exfalso
              apply hpk
              rw [h1]
            · exact h1
          exact hkey p hpm
      · intro p hp
        rcases mem_mapSetKeepPos _ _ _ p hp with h1 | h1
        · rw [h1]
          exact List.mem_append_right _ (List.mem_singleton.mpr rfl)
        · exact List.mem_append_left _ (hmem p h1)
      · intro p hp c2 hc2 hck
        by_cases hpk : p.1 = c.targetKey
        · have hp' := mem_mapSetKeepPos_eq_key _ _ _ hnd p hp hpk
          subst hp'
          rcases List.mem_append.mp hc2 with h2 | h2
          · have hck' : c2.targetKey = p0.1 := by
              rw [hp0k]
              exact hck
            have hd := hdom p0 hp0m c2 h2 hck'
            exact lex_trans_le_lt _ _ _ _ _ _ hd hb'
          · rw [List.mem_singleton.mp h2]
            right
            exact ⟨rfl, le_refl _⟩
        · have hpm : p ∈ m := by
            rcases mem_mapSetKeepPos _ _ _ p hp with h1 | h1
            · exfalso
              apply hpk
              rw [h1]
            · exact h1
          rcases List.mem_append.mp hc2 with h2 | h2
          · exact hdom p hpm c2 h2 hck
          · exfalso
            rw [List.mem_singleton.mp h2] at hck
            exact hpk hck.symm
      · intro c2 hc2
        rcases List.mem_append.mp hc2 with h2 | h2
        · rcases hcov c2 h2 with ⟨q, hq, hq1⟩
          by_cases hqk : q.1 = c.targetKey
          · refine ⟨(c.targetKey, c), self_mem_mapSetKeepPos _ _ _, ?_⟩
            rw [← hq1, hqk]
          · exact ⟨q, mem_mapSetKeepPos_of_ne _ _ _ q hq hqk, hq1⟩
        · rw [List.mem_singleton.mp h2]
          exact ⟨(c.targetKey, c), self_mem_mapSetKeepPos _ _ _, rfl⟩
    · rw [if_neg hb]
      refine ⟨hnd, hkey, ?_, ?_, ?_⟩
      · intro p hp
        exact List.mem_append_left _ (hmem p hp)
      · intro p hp c2 hc2 hck
        rcases List.mem_append.mp hc2 with h2 | h2
        · exact hdom p hp c2 h2 hck
        · have hc2c := List.mem_singleton.mp h2
          subst hc2c
          have hpp0 : p = p0 := by
            apply eq_of_mem_of_keys_nodup m hnd p p0 hp hp0m
            rw [← hck, hp0k]
          subst hpp0
          exact lex_of_not_better _ _ _ _ hb
      · intro c2 hc2
        rcases List.mem_append.mp hc2 with h2 | h2
        · exact hcov c2 h2
        · rw [List.mem_singleton.mp h2]
          exact ⟨p0, hp0m, hp0k⟩

theorem foldl_dedup_inv (cs : List MatchCandidate) (pre : List MatchCandidate)
    (m : List (String × MatchCandidate)) (h : DedupInv pre m) :
    DedupInv (pre ++ cs) (cs.foldl dedupStep m) := by
  induction cs generalizing pre m with
  | nil => simpa using h
  | cons c cs ih =>
    have h1 := dedupStep_inv pre m c h
    have h2 := ih (pre ++ [c]) (dedupStep m c) h1
    rw [List.foldl_cons]
    simpa [List.append_assoc] using h2

theorem byTargetFold_inv (cs : List MatchCandidate) : DedupInv cs (byTargetFold cs) := by
  have h0 : DedupInv [] [] := by
    refine ⟨List.nodup_nil, ?_, ?_, ?_, ?_⟩ <;> intro p hp <;> cases hp
  have := foldl_dedup_inv cs [] [] h0
  simpa [byTargetFold] using this

theorem perm_insertDesc (x : MatchCandidate) (l : List MatchCandidate) :
    List.Perm (insertDesc x l) (x :: l) := by
  induction l with
  | nil => exact List.Perm.refl _
  | cons y ys ih =>
    simp only [insertDesc]
    split
    · exact List.Perm.refl _
    · exact List.Perm.trans (List.Perm.cons y ih) (List.Perm.swap x y ys)

theorem perm_sortDesc (l : List MatchCandidate) : List.Perm (sortDesc l) l := by
  induction l with
  | nil => exact List.Perm.refl _
  | cons x xs ih =>
    exact List.Perm.trans (perm_insertDesc x (sortDesc xs)) (List.Perm.cons x ih)

theorem sorted_insertDesc (x : MatchCandidate) (l : List MatchCandidate)
    (h : l.Pairwise (fun a b => b.confidence ≤ a.confidence)) :
    (insertDesc x l).Pairwise (fun a b => b.confidence ≤ a.confidence) := by
  induction l with
  | nil => exact List.pairwise_singleton _ _
  | cons y ys ih =>
    rw [List.pairwise_cons] at h
    simp only [insertDesc]
    split
    · rename_i hlt
      rw [List.pairwise_cons]
      constructor
      · intro z hz
        rcases List.mem_cons.mp hz with rfl | hz2
        · exact le_of_lt hlt
        · exact le_trans (h.1 z hz2) (le_of_lt hlt)
      · exact List.pairwise_cons.mpr h
    · rename_i hnlt
      rw [List.pairwise_cons]
      constructor
      · intro z hz
        rcases List.mem_cons.mp ((perm_insertDesc x ys).mem_iff.mp hz) with rfl | hz2
        · exact not_lt.mp hnlt
        · exact h.1 z hz2
      · exact ih h.2

theorem sorted_sortDesc (l : List MatchCandidate) :
    (sortDesc l).Pairwise (fun a b => b.confidence ≤ a.confidence) := by
  induction l with
  | nil => simp [sortDesc]
  | cons x xs ih => exact sorted_insertDesc x (sortDesc xs) ih

theorem values_filter_target_le_one (m : List (String × MatchCandidate))
    (hnd : (m.map Prod.fst).Nodup) (hkey : ∀ p ∈ m, p.2.targetKey = p.1) (t : String) :
    ((m.map Prod.snd).filter (fun c => c.targetKey = t)).length ≤ 1 := by
  induction m with
  | nil => simp
  | cons a rest ih =>
    rw [List.map_cons, List.nodup_cons] at hnd
    rw [List.map_cons, List.filter_cons]
    by_cases hat : a.2.targetKey = t
    · rw [if_pos (by simpa using hat)]
      have hzero : (rest.map Prod.snd).filter (fun c => c.targetKey = t) = [] := by
        rw [List.filter_eq_nil_iff]
        intro x hx hxt
        rcases List.mem_map.mp hx with ⟨p, hp, rfl⟩
        apply hnd.1
        have h1 := hkey p (List.mem_cons_of_mem a hp)
        have h2 := hkey a (List.mem_cons_self a rest)
        have hxt' : p.2.targetKey = t := by simpa using hxt
        have hap : a.1 = p.1 := by
          rw [← h2, hat, ← hxt']
          exact h1
        rw [hap]
        exact List.mem_map.mpr ⟨p, hp, rfl⟩
      rw [hzero]
      simp
    · rw [if_neg (by simpa using hat)]
      exact ih hnd.2 (fun p hp => hkey p (List.mem_cons_of_mem a hp))

theorem candidatesOf_nil_of (store : MappingMemoryStore) (fields : List ExtractedFieldIn)
    (h : (store.entries.isEmpty || fields.isEmpty) = true) :
    candidatesOf store fields = [] := by
  have h' : store.entries.isEmpty = true ∨ fields.isEmpty = true := by simpa using h
  rcases h' with h1 | h1
  · have he : store.entries = [] := by
      cases hs : store.entries with
      | nil => rfl
      | cons a l =>
        rw [hs] at h1
        simp at h1
    unfold candidatesOf
    rw [List.filterMap_eq_nil_iff]
    intro f hf
    unfold bestMatchFor
    rw [he]
    rfl
  · have he : fields = [] := by
      cases hs : fields with
      | nil => rfl
      | cons a l =>
        rw [hs] at h1
        simp at h1
    rw [he]
    rfl

/-- C2 counterexample: both extracted fields score 0.85 against target `t`,
yet the returned array contains no proposal for `t` at all — each field's
single best match went to target `u` — so "exactly one proposal for that
target" fails. -/
theorem autoapply_two_fields_same_target_counterexample :
    (1/2 : ℚ) ≤ matchScore "alpha" ⟨"t", TType.field, ["alpha beta"], 1, "d"⟩
      ∧ (⟨"t", TType.field, ["alpha beta"], 1, "d"⟩ : MappingMemoryEntry) ∈ exStoreTU.entries
      ∧ exFieldsAA.length = 2
      ∧ (autoApplyFromMemory exStoreTU exFieldsAA).filter (fun p => p.targetKey = "t") = []
      ∧ autoApplyFromMemory exStoreTU exFieldsAA ≠ [] := by
  refine ⟨by decide, by decide, by decide, by decide, by decide⟩

/-- C2 (amended): auto-apply returns at most one proposal per target key,
sorted by descending confidence; every proposal is a per-field best match
that lexicographically dominates (confidence, then usage count) every other
per-field best match aimed at the same target, and every per-field best
match's target receives a proposal.  Two fields merely scoring at least 0.5
against a target need not yield a proposal for it when their best matches
lie elsewhere. -/
theorem autoapply_target_exclusive_sorted (store : MappingMemoryStore)
    (fields : List ExtractedFieldIn) :
    (∀ t : String, ((autoApplyFromMemory store fields).filter
        (fun p => p.targetKey = t)).length ≤ 1)
      ∧ (autoApplyFromMemory store fields).Pairwise
          (fun a b => b.confidence ≤ a.confidence)
      ∧ (∀ p ∈ autoApplyFromMemory store fields,
          ∃ c, c ∈ candidatesOf store fields ∧ stripUsage c = p
            ∧ ∀ c2 ∈ candidatesOf store fields, c2.targetKey = c.targetKey →
                (c2.confidence < c.confidence
                  ∨ (c2.confidence = c.confidence ∧ c2.usageCount ≤ c.usageCount)))
      ∧ (∀ c ∈ candidatesOf store fields,
          ∃ p ∈ autoApplyFromMemory store fields, p.targetKey = c.targetKey) := by
  by_cases hearly : (store.entries.isEmpty || fields.isEmpty) = true
  · have hres : autoApplyFromMemory store fields = [] := by
      unfold autoApplyFromMemory
      rw [if_pos hearly]
    have hcand := candidatesOf_nil_of store fields hearly
    rw [hres, hcand]
    refine ⟨by simp, by simp, ?_, ?_⟩
    · intro p hp
      cases hp
    · intro c hc
      cases hc
  · have hres : autoApplyFromMemory store fields
        = (sortDesc ((byTargetFold (candidatesOf store fields)).map Prod.snd)).map
            stripUsage := by
      unfold autoApplyFromMemory
      rw [if_neg hearly]
    obtain ⟨hnd, hkey, hmem, hdom, hcov⟩ := byTargetFold_inv (candidatesOf store fields)
    refine ⟨?_, ?_, ?_, ?_⟩
    · intro t
      rw [hres]
      have hfm : (((sortDesc ((byTargetFold (candidatesOf store fields)).map
          Prod.snd)).map stripUsage).filter (fun p => p.targetKey = t)).length
            = (((sortDesc ((byTargetFold (candidatesOf store fields)).map
              Prod.snd)).filter (fun c => c.targetKey = t)).map stripUsage).length := by
        rw [List.filter_map]
        rfl
      rw [hfm, List.length_map]
      rw [((perm_sortDesc _).filter _).length_eq]
      exact values_filter_target_le_one _ hnd hkey t
    · rw [hres]
      rw [List.pairwise_map]
      exact sorted_sortDesc _
    · intro p hp
      rw [hres] at hp
      rcases List.mem_map.mp hp with ⟨v, hv, rfl⟩
      have hvv : v ∈ (byTargetFold (candidatesOf store fields)).map Prod.snd :=
        (perm_sortDesc _).mem_iff.mp hv
      rcases List.mem_map.mp hvv with ⟨q, hq, rfl⟩
      refine ⟨q.2, hmem q hq, rfl, ?_⟩
      intro c2 hc2 hck
      exact hdom q hq c2 hc2 (by rw [hck, hkey q hq])
    · intro c hc
      rcases hcov c hc with ⟨q, hq, hq1⟩
      refine ⟨stripUsage q.2, ?_, ?_⟩
      · rw [hres]
        apply List.mem_map_of_mem
        exact (perm_sortDesc _).mem_iff.mpr (List.mem_map_of_mem _ hq)
      · show q.2.targetKey = c.targetKey
        rw [hkey q hq]
        exact hq1

theorem autoapply_target_exclusive_sorted_witness :
    ((autoApplyFromMemory exStoreTU exFieldsAA).filter
        (fun p => p.targetKey = "u")).length ≤ 1
      ∧ (autoApplyFromMemory exStoreTU exFieldsAA).Pairwise
          (fun a b => b.confidence ≤ a.confidence) :=
  ⟨(autoapply_target_exclusive_sorted exStoreTU exFieldsAA).1 "u",
    (autoapply_target_exclusive_sorted exStoreTU exFieldsAA).2.1⟩

end DocuMap
